import Mathlib

/-!
Verification development for the similarity-based deduplication engine and
checkpoint filter of the claude-memory-system repository.

Texts are modelled as `List Char` (ASCII scope), Python floats as exact
rationals `ℚ`, timestamps as `Int`.  Database I/O is external to the core:
the functions below model the pure computation performed on the already
fetched record list, and persisted mutations are recorded as an explicit
effect list.
-/

namespace Dedup

/-! ## Character classes (Python `\d`, `\s`, `\w`, `str.lower`, ASCII scope) -/

def isDigitC (c : Char) : Bool := c.isDigit

def isSpaceC (c : Char) : Bool :=
  c = ' ' || c = '\t' || c = '\n' || c = '\r' || c = '\x0b' || c = '\x0c'

def isWordC (c : Char) : Bool := c.isAlphanum || c = '_'

/-- ASCII case folding, as Python `str.lower` acts on ASCII letters. -/
def lowerChar (c : Char) : Char :=
  if c = 'A' then 'a' else if c = 'B' then 'b' else if c = 'C' then 'c'
  else if c = 'D' then 'd' else if c = 'E' then 'e' else if c = 'F' then 'f'
  else if c = 'G' then 'g' else if c = 'H' then 'h' else if c = 'I' then 'i'
  else if c = 'J' then 'j' else if c = 'K' then 'k' else if c = 'L' then 'l'
  else if c = 'M' then 'm' else if c = 'N' then 'n' else if c = 'O' then 'o'
  else if c = 'P' then 'p' else if c = 'Q' then 'q' else if c = 'R' then 'r'
  else if c = 'S' then 's' else if c = 'T' then 't' else if c = 'U' then 'u'
  else if c = 'V' then 'v' else if c = 'W' then 'w' else if c = 'X' then 'x'
  else if c = 'Y' then 'y' else if c = 'Z' then 'z' else c

def pyLower (s : List Char) : List Char := s.map lowerChar

/-- Python `str.strip()`: remove whitespace from both ends. -/
def pyStrip (s : List Char) : List Char :=
  ((s.dropWhile isSpaceC).reverse.dropWhile isSpaceC).reverse

/-! ## Regex building blocks

The regex patterns used by the sources are built from character-class runs
(`\d+`, `\s+`, `\w+`), fixed-count runs (`\d{4}`) and literal characters.
Adjacent tokens always have disjoint character classes, so Python's
backtracking is vacuous and each pattern is equivalent to the deterministic
maximal-run scanner below.  A matcher returns the remainder of the input
after a (leftmost, at the present position) match.  -/

/-- Consume a nonempty maximal run of characters satisfying `p` (regex `p+`). -/
def chompRun (p : Char → Bool) (s : List Char) : Option (List Char) :=
  if (s.takeWhile p).isEmpty then none else some (s.dropWhile p)

/-- Consume exactly `n` characters satisfying `p` (regex `p{n}`). -/
def chompCount (p : Char → Bool) (n : Nat) (s : List Char) : Option (List Char) :=
  if (s.take n).length = n ∧ (s.take n).all p then some (s.drop n) else none

/-- Consume one literal character. -/
def chompChar (c : Char) : List Char → Option (List Char)
  | [] => none
  | x :: rest => if x = c then some rest else none

theorem chompRun_length {p : Char → Bool} {s r : List Char}
    (h : chompRun p s = some r) : r.length < s.length := by
  unfold chompRun at h
  split at h
  · exact absurd h (by simp)
  · rename_i hne
    cases h
    cases s with
    | nil => simp [List.takeWhile] at hne
    | cons a t =>
      by_cases hp : p a
      · simpa [List.dropWhile_cons_of_pos hp] using
          Nat.lt_succ_of_le ((List.dropWhile_sublist (l := t) p).length_le)
      · simp [List.takeWhile, hp] at hne

theorem chompRun_length_le {p : Char → Bool} {s r : List Char}
    (h : chompRun p s = some r) : r.length ≤ s.length :=
  Nat.le_of_lt (chompRun_length h)

theorem chompCount_length {p : Char → Bool} {n : Nat} {s r : List Char}
    (h : chompCount p n s = some r) (hn : 0 < n) : r.length < s.length := by
  unfold chompCount at h
  split at h
  · rename_i hc
    cases h
    have hlen : n ≤ s.length := by
      have := hc.1
      simpa [List.length_take] using Nat.le_of_eq this.symm
    have hlen' : n ≤ s.length := by
      rcases Nat.le_total n s.length with h' | h'
      · exact h'
      · exact hlen
    simp only [List.length_drop]
    omega
  · exact absurd h (by simp)

theorem chompChar_length {c : Char} {s r : List Char}
    (h : chompChar c s = some r) : r.length < s.length := by
  cases s with
  | nil => simp [chompChar] at h
  | cons a t =>
    simp only [chompChar] at h
    split at h
    · cases h; simp
    · exact absurd h (by simp)

theorem chompRun_sublist {p : Char → Bool} {s r : List Char}
    (h : chompRun p s = some r) : r.Sublist s := by
  unfold chompRun at h
  split at h
  · exact absurd h (by simp)
  · cases h; exact List.dropWhile_sublist p

theorem chompCount_sublist {p : Char → Bool} {n : Nat} {s r : List Char}
    (h : chompCount p n s = some r) : r.Sublist s := by
  unfold chompCount at h
  split at h
  · cases h; exact List.drop_sublist n s
  · exact absurd h (by simp)

theorem chompChar_sublist {c : Char} {s r : List Char}
    (h : chompChar c s = some r) : r.Sublist s := by
  cases s with
  | nil => simp [chompChar] at h
  | cons a t =>
    simp only [chompChar] at h
    split at h
    · cases h; exact List.sublist_cons_self _ _
    · exact absurd h (by simp)

theorem chompChar_mem {c : Char} {s r : List Char}
    (h : chompChar c s = some r) : c ∈ s := by
  cases s with
  | nil => simp [chompChar] at h
  | cons a t =>
    simp only [chompChar] at h
    split at h
    · rename_i heq; simp [heq]
    · exact absurd h (by simp)

/-- Sequential composition of two pattern steps. -/
def andThen (f g : List Char → Option (List Char)) (s : List Char) :
    Option (List Char) :=
  (f s).bind g

/-- A step that always succeeds, consuming a possibly empty prefix. -/
def IsWeakStep (f : List Char → Option (List Char)) : Prop :=
  ∀ s r, f s = some r → r.length ≤ s.length

/-- A step that consumes at least one character whenever it succeeds. -/
def IsStrictStep (f : List Char → Option (List Char)) : Prop :=
  ∀ s r, f s = some r → r.length < s.length

theorem IsStrictStep.weak {f} (h : IsStrictStep f) : IsWeakStep f :=
  fun s r hr => Nat.le_of_lt (h s r hr)

theorem andThen_strict_weak {f g} (hf : IsStrictStep f) (hg : IsWeakStep g) :
    IsStrictStep (andThen f g) := by
  intro s r h
  unfold andThen at h
  cases hfs : f s with
  | none => simp [hfs] at h
  | some m =>
    rw [hfs] at h
    simp only [Option.some_bind] at h
    exact Nat.lt_of_le_of_lt (hg m r h) (hf s m hfs)

theorem andThen_weak_strict {f g} (hf : IsWeakStep f) (hg : IsStrictStep g) :
    IsStrictStep (andThen f g) := by
  intro s r h
  unfold andThen at h
  cases hfs : f s with
  | none => simp [hfs] at h
  | some m =>
    rw [hfs] at h
    simp only [Option.some_bind] at h
    exact Nat.lt_of_lt_of_le (hg m r h) (hf s m hfs)

theorem andThen_weak_weak {f g} (hf : IsWeakStep f) (hg : IsWeakStep g) :
    IsWeakStep (andThen f g) := by
  intro s r h
  unfold andThen at h
  cases hfs : f s with
  | none => simp [hfs] at h
  | some m =>
    rw [hfs] at h
    simp only [Option.some_bind] at h
    exact Nat.le_trans (hg m r h) (hf s m hfs)

/-- A matcher paired with the guarantee that a match consumes at least one
character, which makes the substitution loop terminate. -/
def Matcher := {m : List Char → Option (List Char) // IsStrictStep m}

/-- Fuel-bounded body of the substitution scan; the fuel dominates the input
length at every call, so the zero-fuel branch is unreachable. -/
def reSubRAux (m : Matcher) (repl : List Char) : Nat → List Char → List Char
  | _, [] => []
  | 0, s => s
  | f + 1, c :: cs =>
    match m.1 (c :: cs) with
    | some rest => repl ++ reSubRAux m repl f rest
    | none => c :: reSubRAux m repl f cs

/-- Python `re.sub(pattern, repl, s)` for the patterns in scope: scan left to
right, replace each leftmost match by `repl` and continue after it. -/
def reSubR (m : Matcher) (repl : List Char) (s : List Char) : List Char :=
  reSubRAux m repl s.length s

theorem reSubRAux_fuel (m : Matcher) (repl : List Char) :
    ∀ f s, s.length ≤ f → reSubRAux m repl f s = reSubR m repl s := by
  intro f
  induction f using Nat.strong_induction_on with
  | _ f ih =>
    intro s hs
    match f, s with
    | f, [] => cases f <;> rfl
    | f + 1, c :: cs =>
      simp only [List.length_cons] at hs
      show reSubRAux m repl (f + 1) (c :: cs) = reSubRAux m repl (c :: cs).length (c :: cs)
      simp only [List.length_cons, reSubRAux]
      cases hm : m.1 (c :: cs) with
      | some rest =>
        have hr := m.2 _ _ hm
        simp only [List.length_cons] at hr
        dsimp only
        rw [ih f (by omega) rest (by omega),
          ih cs.length (by omega) rest (by omega)]
      | none =>
        dsimp only
        rw [ih f (by omega) cs (by omega),
          ih cs.length (by omega) cs (by omega)]

theorem reSubR_nil (m : Matcher) (repl : List Char) : reSubR m repl [] = [] := rfl

/-- The defining equation of the substitution scan on a nonempty input. -/
theorem reSubR_cons (m : Matcher) (repl : List Char) (c : Char) (cs : List Char) :
    reSubR m repl (c :: cs) =
      match m.1 (c :: cs) with
      | some rest => repl ++ reSubR m repl rest
      | none => c :: reSubR m repl cs := by
  show reSubRAux m repl (c :: cs).length (c :: cs) = _
  simp only [List.length_cons, reSubRAux]
  cases hm : m.1 (c :: cs) with
  | some rest =>
    have hr := m.2 _ _ hm
    simp only [List.length_cons] at hr
    dsimp only
    rw [reSubRAux_fuel m repl cs.length rest (by omega)]
  | none =>
    dsimp only
    rw [reSubRAux_fuel m repl cs.length cs (by omega)]

theorem chompRun_strict (p : Char → Bool) : IsStrictStep (chompRun p) :=
  fun _ _ h => chompRun_length h

theorem chompCount_strict (p : Char → Bool) {n : Nat} (hn : 0 < n) :
    IsStrictStep (chompCount p n) :=
  fun _ _ h => chompCount_length h hn

theorem chompChar_strict (c : Char) : IsStrictStep (chompChar c) :=
  fun _ _ h => chompChar_length h

/-- Regex `\s*`: always succeeds, consuming the whitespace run. -/
def skipSpaces (s : List Char) : Option (List Char) :=
  some (s.dropWhile isSpaceC)

theorem skipSpaces_weak : IsWeakStep skipSpaces := by
  intro s r h
  cases h
  exact (List.dropWhile_sublist isSpaceC).length_le

/-! ## The four `normalize_text` removal patterns -/

/-- Regex `\d{4}-\d{2}-\d{2}` (dates). -/
def matchDate : List Char → Option (List Char) :=
  andThen (chompCount isDigitC 4) (andThen (chompChar '-')
    (andThen (chompCount isDigitC 2) (andThen (chompChar '-')
      (chompCount isDigitC 2))))

/-- Regex `\d{2}:\d{2}:\d{2}` (times). -/
def matchTime : List Char → Option (List Char) :=
  andThen (chompCount isDigitC 2) (andThen (chompChar ':')
    (andThen (chompCount isDigitC 2) (andThen (chompChar ':')
      (chompCount isDigitC 2))))

/-- Regex `ID:\s*\d+` (explicit IDs).  Case sensitive, as in the source. -/
def matchIdTag : List Char → Option (List Char) :=
  andThen (chompChar 'I') (andThen (chompChar 'D') (andThen (chompChar ':')
    (andThen skipSpaces (chompRun isDigitC))))

/-- Regex `#\d+` (hash numbers). -/
def matchHash : List Char → Option (List Char) :=
  andThen (chompChar '#') (chompRun isDigitC)

theorem matchDate_strict : IsStrictStep matchDate :=
  andThen_strict_weak (chompCount_strict _ (by omega))
    (andThen_strict_weak (chompChar_strict _)
      (andThen_strict_weak (chompCount_strict _ (by omega))
        (andThen_strict_weak (chompChar_strict _)
          (chompCount_strict _ (by omega)).weak).weak).weak).weak

theorem matchTime_strict : IsStrictStep matchTime :=
  andThen_strict_weak (chompCount_strict _ (by omega))
    (andThen_strict_weak (chompChar_strict _)
      (andThen_strict_weak (chompCount_strict _ (by omega))
        (andThen_strict_weak (chompChar_strict _)
          (chompCount_strict _ (by omega)).weak).weak).weak).weak

theorem matchIdTag_strict : IsStrictStep matchIdTag :=
  andThen_strict_weak (chompChar_strict _)
    (andThen_strict_weak (chompChar_strict _)
      (andThen_strict_weak (chompChar_strict _)
        (andThen_weak_strict skipSpaces_weak (chompRun_strict _)).weak).weak).weak

theorem matchHash_strict : IsStrictStep matchHash :=
  andThen_strict_weak (chompChar_strict _) (chompRun_strict _).weak

def dateMatcher : Matcher := ⟨matchDate, matchDate_strict⟩
def timeMatcher : Matcher := ⟨matchTime, matchTime_strict⟩
def idTagMatcher : Matcher := ⟨matchIdTag, matchIdTag_strict⟩
def hashMatcher : Matcher := ⟨matchHash, matchHash_strict⟩

/-- Scanner for `\s+ -> ' '`: `inRun` tracks whether a whitespace run was
already replaced; each run yields exactly one space. -/
def collapseWsAux : Bool → List Char → List Char
  | _, [] => []
  | inRun, c :: cs =>
    if isSpaceC c then
      if inRun then collapseWsAux true cs else ' ' :: collapseWsAux true cs
    else c :: collapseWsAux false cs

/-- Regex `\s+` replaced by a single space (whitespace collapsing). -/
def collapseWs (s : List Char) : List Char := collapseWsAux false s

/-- Regex `[^\w\s]` removal. -/
def removeNonWord (s : List Char) : List Char :=
  s.filter (fun c => isWordC c || isSpaceC c)

/-- `IntelligentDeduplicationEngine.normalize_text`: lower-case and strip,
remove date/time/ID/hash patterns, collapse whitespace, drop punctuation,
strip again. -/
def normalize_text (text : List Char) : List Char :=
  pyStrip (removeNonWord (collapseWs
    (reSubR hashMatcher [] (reSubR idTagMatcher []
      (reSubR timeMatcher [] (reSubR dateMatcher []
        (pyStrip (pyLower text))))))))

/-! ## difflib.SequenceMatcher (as used: `SequenceMatcher(None, a, b).ratio()`)

`isjunk` is `None`, so the junk set is empty; `autojunk` is on, so characters
occurring more than `len(b) / 100 + 1` times are dropped from the position
index `b2j` when `len(b) >= 200`. -/

/-- Positions of `c` in `b`, ascending (the `b2j` dictionary entries). -/
def b2jRaw (b : List Char) (c : Char) : List Nat :=
  (List.range b.length).filter (fun j => b.getD j ' ' = c)

/-- Autojunk: `c` is "popular" when `b` is long and `c` frequent. -/
def isPopular (b : List Char) (c : Char) : Bool :=
  decide (200 ≤ b.length) && decide (b.length / 100 + 1 < (b2jRaw b c).length)

def b2j (b : List Char) (c : Char) : List Nat :=
  if isPopular b c then [] else b2jRaw b c

/-- Inner loop of `find_longest_match` over the `b`-positions of `a[i]`:
builds the new `j2len` row from the previous one and updates the best block
(strictly-greater updates only). -/
def flmInner (prev : Nat → Nat) (i : Nat) :
    List Nat → (Nat → Nat) → Nat × Nat × Nat → (Nat → Nat) × (Nat × Nat × Nat)
  | [], row, best => (row, best)
  | j :: js, row, best =>
    let k := (if j = 0 then 0 else prev (j - 1)) + 1
    let row' := fun j' => if j' = j then k else row j'
    let best' := if best.2.2 < k then (i + 1 - k, j + 1 - k, k) else best
    flmInner prev i js row' best'

/-- Outer loop of `find_longest_match` over the rows `i` of range `a`. -/
def flmRows (a b : List Char) (blo bhi : Nat) :
    List Nat → (Nat → Nat) → Nat × Nat × Nat → Nat × Nat × Nat
  | [], _, best => best
  | i :: is, prev, best =>
    let js := (b2j b (a.getD i ' ')).filter (fun j => decide (blo ≤ j) && decide (j < bhi))
    let rb := flmInner prev i js (fun _ => 0) best
    flmRows a b blo bhi is rb.1 rb.2

/-- The guard of the downward extension loop (`junk` selects between the
non-junk pass and the junk pass). -/
def extendLowerCond (a b : List Char) (bjunk : Char → Bool) (junk : Bool)
    (alo blo : Nat) (t : Nat × Nat × Nat) : Prop :=
  alo < t.1 ∧ blo < t.2.1 ∧ bjunk (b.getD (t.2.1 - 1) ' ') = junk ∧
    a.getD (t.1 - 1) ' ' = b.getD (t.2.1 - 1) ' '

instance (a b bjunk junk alo blo t) :
    Decidable (extendLowerCond a b bjunk junk alo blo t) := by
  unfold extendLowerCond; infer_instance

/-- The guard of the upward extension loop. -/
def extendUpperCond (a b : List Char) (bjunk : Char → Bool) (junk : Bool)
    (ahi bhi : Nat) (t : Nat × Nat × Nat) : Prop :=
  t.1 + t.2.2 < ahi ∧ t.2.1 + t.2.2 < bhi ∧
    bjunk (b.getD (t.2.1 + t.2.2) ' ') = junk ∧
    a.getD (t.1 + t.2.2) ' ' = b.getD (t.2.1 + t.2.2) ' '

instance (a b bjunk junk ahi bhi t) :
    Decidable (extendUpperCond a b bjunk junk ahi bhi t) := by
  unfold extendUpperCond; infer_instance

/-- Fuel-bounded downward extension loop
(`while besti > alo and bestj > blo and ...`); the fuel dominates `besti`,
which strictly decreases, so the zero-fuel branch is unreachable. -/
def extendLowerAux (a b : List Char) (bjunk : Char → Bool) (junk : Bool)
    (alo blo : Nat) : Nat → Nat × Nat × Nat → Nat × Nat × Nat
  | 0, t => t
  | f + 1, t =>
    if extendLowerCond a b bjunk junk alo blo t then
      extendLowerAux a b bjunk junk alo blo f (t.1 - 1, t.2.1 - 1, t.2.2 + 1)
    else t

def extendLower (a b : List Char) (bjunk : Char → Bool) (junk : Bool)
    (alo blo : Nat) (t : Nat × Nat × Nat) : Nat × Nat × Nat :=
  extendLowerAux a b bjunk junk alo blo t.1 t

/-- Fuel-bounded upward extension loop; the fuel dominates
`ahi - (besti + bestsize)`, which strictly decreases. -/
def extendUpperAux (a b : List Char) (bjunk : Char → Bool) (junk : Bool)
    (ahi bhi : Nat) : Nat → Nat × Nat × Nat → Nat × Nat × Nat
  | 0, t => t
  | f + 1, t =>
    if extendUpperCond a b bjunk junk ahi bhi t then
      extendUpperAux a b bjunk junk ahi bhi f (t.1, t.2.1, t.2.2 + 1)
    else t

def extendUpper (a b : List Char) (bjunk : Char → Bool) (junk : Bool)
    (ahi bhi : Nat) (t : Nat × Nat × Nat) : Nat × Nat × Nat :=
  extendUpperAux a b bjunk junk ahi bhi ahi t

/-- `SequenceMatcher.find_longest_match(alo, ahi, blo, bhi)`: the dynamic
programming pass followed by the two non-junk and the two junk extension
loops.  With `isjunk = None` the junk set is empty, so `bjunk` is the
constantly-false predicate at every use site. -/
def findLongestMatch (a b : List Char) (bjunk : Char → Bool)
    (alo ahi blo bhi : Nat) : Nat × Nat × Nat :=
  extendUpper a b bjunk true ahi bhi
    (extendLower a b bjunk true alo blo
      (extendUpper a b bjunk false ahi bhi
        (extendLower a b bjunk false alo blo
          (flmRows a b blo bhi (List.range' alo (ahi - alo))
            (fun _ => 0) (alo, blo, 0)))))

/-- `get_matching_blocks` recursion, fuel-bounded.  The fuel passed at the
top level strictly dominates the recursion depth (each non-trivial call
splits a nonempty range), so it never runs out. -/
def matchingBlocksAux (a b : List Char) (bjunk : Char → Bool) :
    Nat → Nat → Nat → Nat → Nat → List (Nat × Nat × Nat)
  | 0, _, _, _, _ => []
  | fuel + 1, alo, ahi, blo, bhi =>
    let t := findLongestMatch a b bjunk alo ahi blo bhi
    if t.2.2 = 0 then []
    else
      matchingBlocksAux a b bjunk fuel alo t.1 blo t.2.1 ++
        t :: matchingBlocksAux a b bjunk fuel (t.1 + t.2.2) ahi (t.2.1 + t.2.2) bhi

def matchingBlocks (a b : List Char) : List (Nat × Nat × Nat) :=
  matchingBlocksAux a b (fun _ => false) (a.length + b.length + 1) 0 a.length 0 b.length

/-- `SequenceMatcher.ratio()`: `2 * M / (len(a) + len(b))`, and `1.0` when
both inputs are empty. -/
def smRatio (a b : List Char) : ℚ :=
  let total := ((matchingBlocks a b).map (fun t => t.2.2)).sum
  if a.length + b.length = 0 then 1
  else 2 * (total : ℚ) / ((a.length : ℚ) + (b.length : ℚ))

/-! ## Levenshtein distance and the similarity metrics -/

/-- Fuel-bounded edit-distance recursion; the fuel dominates the total
length at every call, so the zero-fuel branch is unreachable. -/
def levenshteinAux : Nat → List Char → List Char → Nat
  | _, [], t => t.length
  | _, s, [] => s.length
  | 0, _, _ => 0
  | f + 1, a :: s, b :: t =>
    if a = b then levenshteinAux f s t
    else 1 + min (levenshteinAux f s t)
      (min (levenshteinAux f (a :: s) t) (levenshteinAux f s (b :: t)))

/-- Unit-cost insert/delete/substitute edit distance (`Levenshtein.distance`). -/
def levenshtein (s t : List Char) : Nat :=
  levenshteinAux (s.length + t.length) s t

theorem levenshteinAux_fuel :
    ∀ f {g : Nat} {s t : List Char}, s.length + t.length ≤ f → s.length + t.length ≤ g →
      levenshteinAux f s t = levenshteinAux g s t := by
  intro f
  induction f using Nat.strong_induction_on with
  | _ f ih =>
    intro g s t hf hg
    match f, g, s, t with
    | f, g, [], t => simp [levenshteinAux]
    | f, g, a :: s, [] => simp [levenshteinAux]
    | f + 1, g + 1, a :: s, b :: t =>
      simp only [List.length_cons] at hf hg
      simp only [levenshteinAux]
      by_cases hab : a = b
      · simp only [if_pos hab]
        exact ih f (by omega) (by omega) (by omega)
      · simp only [if_neg hab]
        rw [ih f (by omega) (g := g) (by omega) (by omega),
          ih f (by omega) (g := g) (s := a :: s) (by simp; omega) (by simp; omega),
          ih f (by omega) (g := g) (t := b :: t) (by simp; omega) (by simp; omega)]

theorem levenshtein_nil_left (t : List Char) : levenshtein [] t = t.length := by
  simp [levenshtein, levenshteinAux]

theorem levenshtein_nil_right (s : List Char) : levenshtein s [] = s.length := by
  cases s <;> simp [levenshtein, levenshteinAux]

/-- The defining recurrence of the edit distance. -/
theorem levenshtein_cons (a b : Char) (s t : List Char) :
    levenshtein (a :: s) (b :: t) =
      if a = b then levenshtein s t
      else 1 + min (levenshtein s t)
        (min (levenshtein (a :: s) t) (levenshtein s (b :: t))) := by
  have h1 : levenshtein (a :: s) (b :: t) =
      levenshteinAux ((s.length + t.length + 1) + 1) (a :: s) (b :: t) :=
    levenshteinAux_fuel _ (by simp only [List.length_cons]; omega)
      (by simp only [List.length_cons]; omega)
  rw [h1]
  simp only [levenshteinAux]
  rw [levenshteinAux_fuel (s.length + t.length + 1) (g := s.length + t.length)
      (by omega) (by omega),
    levenshteinAux_fuel (s.length + t.length + 1) (g := (a :: s).length + t.length)
      (by simp only [List.length_cons]; omega) (by simp only [List.length_cons]; omega),
    levenshteinAux_fuel (s.length + t.length + 1) (g := s.length + (b :: t).length)
      (by simp only [List.length_cons]; omega) (by simp only [List.length_cons]; omega)]
  rfl

/-- Scanner for Python `str.split()`: `acc` is the word being accumulated. -/
def pySplitAux : List Char → List Char → List (List Char)
  | [], acc => if acc.isEmpty then [] else [acc]
  | c :: cs, acc =>
    if isSpaceC c then
      if acc.isEmpty then pySplitAux cs [] else acc :: pySplitAux cs []
    else pySplitAux cs (acc ++ [c])

/-- Python `str.split()`: whitespace-separated words, no empties. -/
def pySplit (s : List Char) : List (List Char) := pySplitAux s []

/-- The four configured algorithm weights. -/
structure Weights where
  exact_match : ℚ
  sequence_similarity : ℚ
  levenshtein_similarity : ℚ
  jaccard_similarity : ℚ

/-- Default `algorithm_weights` from the configuration. -/
def defaultWeights : Weights :=
  { exact_match := 3 / 10
    sequence_similarity := 1 / 4
    levenshtein_similarity := 1 / 4
    jaccard_similarity := 1 / 5 }

structure SimilarityScore where
  exact_match : ℚ
  sequence_similarity : ℚ
  levenshtein_similarity : ℚ
  jaccard_similarity : ℚ
  composite_similarity : ℚ
deriving DecidableEq

/-- `IntelligentDeduplicationEngine.calculate_similarity`. -/
def calculate_similarity (w : Weights) (text1 text2 : List Char) : SimilarityScore :=
  let norm1 := normalize_text text1
  let norm2 := normalize_text text2
  let exact : ℚ := if norm1 = norm2 then 1 else 0
  let seq := smRatio norm1 norm2
  let maxLen := max norm1.length norm2.length
  let lev : ℚ :=
    if maxLen = 0 then 1 else 1 - (levenshtein norm1 norm2 : ℚ) / (maxLen : ℚ)
  let words1 := (pySplit norm1).toFinset
  let words2 := (pySplit norm2).toFinset
  let jac : ℚ :=
    if words1 = ∅ ∧ words2 = ∅ then 1
    else if words1 = ∅ ∨ words2 = ∅ then 0
    else ((words1 ∩ words2).card : ℚ) / ((words1 ∪ words2).card : ℚ)
  { exact_match := exact
    sequence_similarity := seq
    levenshtein_similarity := lev
    jaccard_similarity := jac
    composite_similarity :=
      exact * w.exact_match + seq * w.sequence_similarity +
        lev * w.levenshtein_similarity + jac * w.jaccard_similarity }

/-! ## Clustering: `find_duplicates`

The database read is an external collaborator; the model takes the already
fetched `(id, content, created_at)` rows (newest first) as input. -/

structure Record where
  id : Nat
  content : List Char
  created_at : Int
deriving DecidableEq, Inhabited

/-- Inner loop of `find_duplicates`: scan the records after the leader,
skipping processed ids, adding any whose composite score against the
leader's content reaches the threshold, and marking them processed. -/
def scanMembers (w : Weights) (threshold : ℚ) (leaderContent : List Char) :
    List Record → List Nat → List Record × List Nat
  | [], p => ([], p)
  | r :: rest, p =>
    if r.id ∈ p then scanMembers w threshold leaderContent rest p
    else if threshold ≤ (calculate_similarity w leaderContent r.content).composite_similarity then
      let mp := scanMembers w threshold leaderContent rest (r.id :: p)
      (r :: mp.1, mp.2)
    else scanMembers w threshold leaderContent rest p

/-- Outer loop of `find_duplicates`: greedy leader clustering with the
`processed_ids` set; a group is emitted only when it grew beyond the leader. -/
def clusterAux (w : Weights) (threshold : ℚ) : List Record → List Nat → List (List Record)
  | [], _ => []
  | r :: rest, p =>
    if r.id ∈ p then clusterAux w threshold rest p
    else
      let mp := scanMembers w threshold r.content rest p
      if mp.1.isEmpty then clusterAux w threshold rest (r.id :: mp.2)
      else (r :: mp.1) :: clusterAux w threshold rest (r.id :: mp.2)

structure Group where
  group_id : Nat
  records : List Record
  count : Nat
  similarity_scores : List SimilarityScore
deriving DecidableEq

structure AnalysisResult where
  total_records : Nat
  duplicate_groups : List Group
  duplicate_records : Nat
  duplicate_rate : ℚ
deriving DecidableEq

/-- Turn a raw member list into the emitted group dictionary; `group_id` is
the index at which the group was appended. -/
def mkGroup (w : Weights) (gid : Nat) (members : List Record) : Group :=
  { group_id := gid
    records := members
    count := members.length
    similarity_scores :=
      (members.drop 1).map (fun r =>
        calculate_similarity w (members.headI.content) r.content) }

/-- `IntelligentDeduplicationEngine.find_duplicates`, applied to the fetched
record rows. -/
def find_duplicates (w : Weights) (threshold : ℚ) (records : List Record) : AnalysisResult :=
  let raw := clusterAux w threshold records []
  let groups := raw.enum.map (fun ig => mkGroup w ig.1 ig.2)
  let dupCount := (groups.map Group.count).sum
  { total_records := records.length
    duplicate_groups := groups
    duplicate_records := dupCount
    duplicate_rate :=
      if 0 < records.length then (dupCount : ℚ) / (records.length : ℚ) * 100 else 0 }

/-! ## Resolution: `resolve_duplicates`

Persisted mutations are modelled as an explicit effect list; a dry run
executes none of them.  `fmt` renders a timestamp and `now` is the current
wall-clock string, both only used to build merged content. -/

inductive DbEffect
  | connect
  | updateMarkDuplicate (keptId targetId : Nat)
  | updateSetContent (content : List Char) (id : Nat)
  | updateMarkMerged (primaryId targetId : Nat)
  | updateFlagGroup (groupId targetId : Nat)
  | commit
deriving DecidableEq

inductive ResolutionAction
  | keepLatest (kept_id : Nat) (marked_ids : List Nat) (group_size : Nat)
  | mergeRecords (primary_id : Nat) (secondary_ids : List Nat) (group_size : Nat)
  | flagOnly (flagged_ids : List Nat) (group_id : Nat) (group_size : Nat)
deriving DecidableEq

def ResolutionAction.group_size : ResolutionAction → Nat
  | .keepLatest _ _ n => n
  | .mergeRecords _ _ n => n
  | .flagOnly _ _ n => n

inductive ResolveResult
  | noDuplicates (message : String)
  | errorResult (message : String)
  | completed (action : String) (strategy : String) (groups_processed : Nat)
      (records_affected : Nat) (resolution_actions : List ResolutionAction)
deriving DecidableEq

/-- The `action` key of the returned dictionary. -/
def ResolveResult.action : ResolveResult → String
  | .noDuplicates _ => "no_duplicates_found"
  | .errorResult _ => "error"
  | .completed a _ _ _ _ => a

def ResolveResult.resolution_actions : ResolveResult → List ResolutionAction
  | .completed _ _ _ _ acts => acts
  | _ => []

/-- Python `max(records, key=lambda x: x[2])`: first maximal element. -/
def pyMaxByCreated : List Record → Option Record
  | [] => none
  | r :: rs => some (rs.foldl (fun best x => if best.created_at < x.created_at then x else best) r)

/-- `IntelligentDeduplicationEngine._merge_content`. -/
def merge_content (fmt : Int → List Char) (now : List Char)
    (primary : Record) (secondaries : List Record) : List Char :=
  primary.content ++
    (("\n[MERGED from ".toList) ++ ((toString secondaries.length).toList) ++
      (" duplicates on ".toList) ++ now ++ ("]".toList)) ++
    (("\n[Original dates: ".toList) ++
      (List.intercalate (", ".toList) (secondaries.map (fun r => fmt r.created_at))) ++
      ("]".toList))

/-- One iteration of the strategy dispatch inside `resolve_duplicates`.
An unrecognized strategy matches no branch: no action, no update.  `max` on
an empty member list raises, which surfaces as the error result. -/
def resolveGroup (strategy : String) (fmt : Int → List Char) (now : List Char)
    (g : Group) : Except String (List ResolutionAction × List DbEffect) :=
  if strategy = "keep_latest" then
    match pyMaxByCreated g.records with
    | none => .error "max() iterable argument is empty"
    | some latest =>
      let older := g.records.filter (fun r => r.id ≠ latest.id)
      .ok ([.keepLatest latest.id (older.map Record.id) g.records.length],
        older.map (fun r => .updateMarkDuplicate latest.id r.id))
  else if strategy = "merge" then
    match pyMaxByCreated g.records with
    | none => .error "max() iterable argument is empty"
    | some primary =>
      let secondaries := g.records.filter (fun r => r.id ≠ primary.id)
      .ok ([.mergeRecords primary.id (secondaries.map Record.id) g.records.length],
        .updateSetContent (merge_content fmt now primary secondaries) primary.id ::
          secondaries.map (fun r => .updateMarkMerged primary.id r.id))
  else if strategy = "flag_only" then
    .ok ([.flagOnly (g.records.map Record.id) g.group_id g.records.length],
      g.records.map (fun r => .updateFlagGroup g.group_id r.id))
  else .ok ([], [])

/-- The `for group in ...` loop, short-circuiting on the first exception. -/
def resolveGroups (strategy : String) (fmt : Int → List Char) (now : List Char) :
    List Group → Except String (List ResolutionAction × List DbEffect)
  | [] => .ok ([], [])
  | g :: gs => do
    let hd ← resolveGroup strategy fmt now g
    let tl ← resolveGroups strategy fmt now gs
    pure (hd.1 ++ tl.1, hd.2 ++ tl.2)

/-- `IntelligentDeduplicationEngine.resolve_duplicates`.  The effect list
records the durable persistence mutations of the call: none before the
early return, none on a dry run, and none on error (rollback). -/
def resolve_duplicates (analysis : AnalysisResult) (strategy : String)
    (dry_run : Bool) (fmt : Int → List Char) (now : List Char) :
    ResolveResult × List DbEffect :=
  if analysis.duplicate_groups.isEmpty then
    (.noDuplicates "No duplicates to resolve", [])
  else
    match resolveGroups strategy fmt now analysis.duplicate_groups with
    | .error e => (.errorResult ("Error resolving duplicates: " ++ e), [.connect])
    | .ok au =>
      (.completed (if dry_run then "dry_run_completed" else "resolution_applied")
          strategy analysis.duplicate_groups.length
          ((au.1.map ResolutionAction.group_size).sum) au.1,
        .connect :: (if dry_run then [] else au.2 ++ [.commit]))

/-! ## Checkpoint filter: signature grouping -/

/-- Regex `\w+\s+\w+\s+\d+\s+\d+:\d+:\d+\s+\w+\s+\d+` (compound timestamp).
Adjacent tokens have disjoint classes, so the greedy scan is exact. -/
def matchCompoundTs : List Char → Option (List Char) :=
  andThen (chompRun isWordC) (andThen (chompRun isSpaceC)
    (andThen (chompRun isWordC) (andThen (chompRun isSpaceC)
      (andThen (chompRun isDigitC) (andThen (chompRun isSpaceC)
        (andThen (chompRun isDigitC) (andThen (chompChar ':')
          (andThen (chompRun isDigitC) (andThen (chompChar ':')
            (andThen (chompRun isDigitC) (andThen (chompRun isSpaceC)
              (andThen (chompRun isWordC) (andThen (chompRun isSpaceC)
                (chompRun isDigitC))))))))))))))

/-- Regex `\d{4}-\d{2}-\d{2}\s+\d{2}:\d{2}:\d{2}` (ISO datetime). -/
def matchIsoDatetime : List Char → Option (List Char) :=
  andThen (chompCount isDigitC 4) (andThen (chompChar '-')
    (andThen (chompCount isDigitC 2) (andThen (chompChar '-')
      (andThen (chompCount isDigitC 2) (andThen (chompRun isSpaceC)
        (andThen (chompCount isDigitC 2) (andThen (chompChar ':')
          (andThen (chompCount isDigitC 2) (andThen (chompChar ':')
            (chompCount isDigitC 2))))))))))

/-- Regex `\d+` (digit runs). -/
def matchNum : List Char → Option (List Char) := chompRun isDigitC

theorem matchCompoundTs_strict : IsStrictStep matchCompoundTs :=
  andThen_strict_weak (chompRun_strict _)
    (andThen_strict_weak (chompRun_strict _)
      (andThen_strict_weak (chompRun_strict _)
        (andThen_strict_weak (chompRun_strict _)
          (andThen_strict_weak (chompRun_strict _)
            (andThen_strict_weak (chompRun_strict _)
              (andThen_strict_weak (chompRun_strict _)
                (andThen_strict_weak (chompChar_strict _)
                  (andThen_strict_weak (chompRun_strict _)
                    (andThen_strict_weak (chompChar_strict _)
                      (andThen_strict_weak (chompRun_strict _)
                        (andThen_strict_weak (chompRun_strict _)
                          (andThen_strict_weak (chompRun_strict _)
                            (andThen_strict_weak (chompRun_strict _)
                              (chompRun_strict _).weak).weak).weak).weak).weak).weak).weak).weak).weak).weak).weak).weak).weak).weak

theorem matchIsoDatetime_strict : IsStrictStep matchIsoDatetime :=
  andThen_strict_weak (chompCount_strict _ (by omega))
    (andThen_strict_weak (chompChar_strict _)
      (andThen_strict_weak (chompCount_strict _ (by omega))
        (andThen_strict_weak (chompChar_strict _)
          (andThen_strict_weak (chompCount_strict _ (by omega))
            (andThen_strict_weak (chompRun_strict _)
              (andThen_strict_weak (chompCount_strict _ (by omega))
                (andThen_strict_weak (chompChar_strict _)
                  (andThen_strict_weak (chompCount_strict _ (by omega))
                    (andThen_strict_weak (chompChar_strict _)
                      (chompCount_strict _ (by omega)).weak).weak).weak).weak).weak).weak).weak).weak).weak).weak

theorem matchNum_strict : IsStrictStep matchNum := chompRun_strict _

def compoundTsMatcher : Matcher := ⟨matchCompoundTs, matchCompoundTs_strict⟩
def isoDatetimeMatcher : Matcher := ⟨matchIsoDatetime, matchIsoDatetime_strict⟩
def numMatcher : Matcher := ⟨matchNum, matchNum_strict⟩

/-- The placeholder normalization inside
`CheckpointFilter.generate_checkpoint_signature`, before hashing. -/
def signatureNormalize (text : List Char) : List Char :=
  reSubR numMatcher ("NUM".toList)
    (reSubR timeMatcher ("TIME".toList)
      (reSubR isoDatetimeMatcher ("DATETIME".toList)
        (reSubR compoundTsMatcher ("TIMESTAMP".toList) text)))

/-- `CheckpointFilter.generate_checkpoint_signature`: a stable digest of the
placeholder-normalized text.  The digest function (`md5` hexdigest in the
source) is an abstract parameter: the analysis only ever compares digests
for equality. -/
def generate_checkpoint_signature (digest : List Char → List Char)
    (text : List Char) : List Char :=
  digest (signatureNormalize text)

/-- `CheckpointFilter.is_checkpoint_observation`: first regex match wins;
the configured pattern list is abstracted as a list of predicates. -/
def is_checkpoint_observation (patterns : List (List Char → Bool))
    (text : List Char) : Bool :=
  patterns.any (fun p => p text)

/-- `checkpoint_groups[signature].append(...)`: insertion-ordered grouping
dictionary keyed by signature. -/
def addToGroups (key : List Char) (r : Record) :
    List (List Char × List Record) → List (List Char × List Record)
  | [] => [(key, [r])]
  | e :: rest =>
    if e.1 = key then (e.1, e.2 ++ [r]) :: rest else e :: addToGroups key r rest

/-- The grouping loop of `CheckpointFilter.analyze_checkpoint_redundancy`:
checkpoint observations are grouped by signature, the rest are regular. -/
def buildCheckpointGroups (isCp : List Char → Bool) (digest : List Char → List Char) :
    List Record → List (List Char × List Record) → List Record →
      List (List Char × List Record) × List Record
  | [], groups, regular => (groups, regular)
  | r :: rest, groups, regular =>
    if isCp r.content then
      buildCheckpointGroups isCp digest rest
        (addToGroups (generate_checkpoint_signature digest r.content) r groups) regular
    else
      buildCheckpointGroups isCp digest rest groups (regular ++ [r])

/-- The grouping performed by `analyze_checkpoint_redundancy` on the fetched
observations. -/
def analyze_checkpoint_redundancy (isCp : List Char → Bool)
    (digest : List Char → List Char) (records : List Record) :
    List (List Char × List Record) × List Record :=
  buildCheckpointGroups isCp digest records [] []

/-! ## Supporting lemmas for the claims -/

theorem levenshtein_comm (a b : List Char) : levenshtein a b = levenshtein b a := by
  generalize hn : a.length + b.length = n
  induction n using Nat.strong_induction_on generalizing a b with
  | _ n ih =>
    match a, b with
    | [], t => rw [levenshtein_nil_left, levenshtein_nil_right]
    | x :: s, [] => rw [levenshtein_nil_left, levenshtein_nil_right]
    | x :: s, y :: t =>
      simp only [List.length_cons] at hn
      rw [levenshtein_cons, levenshtein_cons]
      by_cases h : x = y
      · subst h
        simp only [if_pos rfl]
        exact ih (s.length + t.length) (by omega) s t rfl
      · rw [if_neg h, if_neg (Ne.symm h),
          ih (s.length + t.length) (by omega) s t rfl,
          ih ((x :: s).length + t.length) (by simp; omega) (x :: s) t rfl,
          ih (s.length + (y :: t).length) (by simp; omega) s (y :: t) rfl,
          Nat.min_comm (levenshtein t (x :: s)) (levenshtein (y :: t) s)]

theorem levenshtein_self (s : List Char) : levenshtein s s = 0 := by
  induction s with
  | nil => rfl
  | cons a t ih => rw [levenshtein_cons, if_pos rfl, ih]

/-! ## Claim C8 -/

/-- Claim C8: the metrics are total with explicit zero-length fallbacks.
When both normalized inputs are empty, the Levenshtein similarity is exactly
1; when both token sets are empty, the Jaccard similarity is exactly 1; and
when exactly one of the two token sets is empty, the Jaccard similarity is
exactly 0. -/
theorem claim_C8_zero_length_fallbacks (a b : List Char) :
    (normalize_text a = [] ∧ normalize_text b = [] →
      (calculate_similarity defaultWeights a b).levenshtein_similarity = 1) ∧
    ((pySplit (normalize_text a)).toFinset = ∅ ∧ (pySplit (normalize_text b)).toFinset = ∅ →
      (calculate_similarity defaultWeights a b).jaccard_similarity = 1) ∧
    ((pySplit (normalize_text a)).toFinset = ∅ ∧ (pySplit (normalize_text b)).toFinset ≠ ∅ →
      (calculate_similarity defaultWeights a b).jaccard_similarity = 0) ∧
    ((pySplit (normalize_text a)).toFinset ≠ ∅ ∧ (pySplit (normalize_text b)).toFinset = ∅ →
      (calculate_similarity defaultWeights a b).jaccard_similarity = 0) := by
  refine ⟨fun h => ?_, fun h => ?_, fun h => ?_, fun h => ?_⟩
  · simp [calculate_similarity, h.1, h.2]
  · simp [calculate_similarity, h.1, h.2]
  · simp [calculate_similarity, h.1, h.2]
  · simp [calculate_similarity, h.1, h.2]

/-- Witness for C8 at concrete inputs: both empty, and exactly one empty. -/
theorem claim_C8_witness :
    (calculate_similarity defaultWeights [] []).levenshtein_similarity = 1 ∧
    (calculate_similarity defaultWeights [] []).jaccard_similarity = 1 ∧
    (calculate_similarity defaultWeights [] (['x'])).jaccard_similarity = 0 := by
  refine ⟨(claim_C8_zero_length_fallbacks [] []).1 ⟨by decide, by decide⟩,
    (claim_C8_zero_length_fallbacks [] []).2.1 ⟨by decide, by decide⟩,
    (claim_C8_zero_length_fallbacks [] (['x'])).2.2.1 ⟨by decide, by decide⟩⟩

/-! ## Claim C2 -/

/-- Claim C2 (amended): of the four metrics, `exact_match`,
`levenshtein_similarity` and `jaccard_similarity` are symmetric in the two
texts for all inputs.  (`sequence_similarity` and hence the composite are
not; see the counterexample.) -/
theorem claim_C2_three_metrics_symmetric (a b : List Char) :
    (calculate_similarity defaultWeights a b).exact_match =
      (calculate_similarity defaultWeights b a).exact_match ∧
    (calculate_similarity defaultWeights a b).levenshtein_similarity =
      (calculate_similarity defaultWeights b a).levenshtein_similarity ∧
    (calculate_similarity defaultWeights a b).jaccard_similarity =
      (calculate_similarity defaultWeights b a).jaccard_similarity := by
  refine ⟨?_, ?_, ?_⟩
  · simp only [calculate_similarity]
    by_cases h : normalize_text a = normalize_text b
    · rw [if_pos h, if_pos h.symm]
    · rw [if_neg h, if_neg (fun hh => h hh.symm)]
  · simp only [calculate_similarity]
    rw [levenshtein_comm, Nat.max_comm]
  · simp only [calculate_similarity]
    by_cases h1 : (pySplit (normalize_text a)).toFinset = ∅ <;>
      by_cases h2 : (pySplit (normalize_text b)).toFinset = ∅ <;>
        simp [h1, h2, Finset.inter_comm, Finset.union_comm]

unseal Rat.mul Rat.inv Rat.add Rat.sub in
/-- Counterexample for C2 as stated: the difflib sequence similarity (and
with it the composite score) is not symmetric. -/
theorem claim_C2_counterexample :
    (calculate_similarity defaultWeights ("zwabcd".toList) ("cdzab".toList)).sequence_similarity ≠
      (calculate_similarity defaultWeights ("cdzab".toList) ("zwabcd".toList)).sequence_similarity ∧
    (calculate_similarity defaultWeights ("zwabcd".toList) ("cdzab".toList)).composite_similarity ≠
      (calculate_similarity defaultWeights ("cdzab".toList) ("zwabcd".toList)).composite_similarity := by
  decide

/-! ## Claim C10 -/

/-- Claim C10: when the analysis has no duplicate groups, `resolve_duplicates`
returns the structured `no_duplicates_found` result immediately, with no
persistence connection and no effects at all, for every strategy and
`dry_run` flag. -/
theorem claim_C10_empty_groups_no_effects (analysis : AnalysisResult)
    (strategy : String) (dry_run : Bool) (fmt : Int → List Char) (now : List Char)
    (h : analysis.duplicate_groups = []) :
    resolve_duplicates analysis strategy dry_run fmt now =
      (.noDuplicates "No duplicates to resolve", []) := by
  simp [resolve_duplicates, h]

/-- Witness for C10 at a concrete empty analysis. -/
theorem claim_C10_witness :
    resolve_duplicates ⟨0, [], 0, 0⟩ "merge" false (fun _ => []) [] =
      (.noDuplicates "No duplicates to resolve", []) :=
  claim_C10_empty_groups_no_effects ⟨0, [], 0, 0⟩ "merge" false (fun _ => []) [] rfl

/-! ## Claim C3 -/

theorem resolveGroup_invalid (strategy : String) (fmt : Int → List Char)
    (now : List Char) (g : Group) (h1 : strategy ≠ "keep_latest")
    (h2 : strategy ≠ "merge") (h3 : strategy ≠ "flag_only") :
    resolveGroup strategy fmt now g = .ok ([], []) := by
  simp [resolveGroup, h1, h2, h3]

theorem resolveGroups_invalid (strategy : String) (fmt : Int → List Char)
    (now : List Char) (h1 : strategy ≠ "keep_latest") (h2 : strategy ≠ "merge")
    (h3 : strategy ≠ "flag_only") :
    ∀ gs, resolveGroups strategy fmt now gs = .ok ([], []) := by
  intro gs
  induction gs with
  | nil => rfl
  | cons g gs ih =>
    simp only [resolveGroups]
    rw [resolveGroup_invalid strategy fmt now g h1 h2 h3, ih]
    rfl

/-- Claim C3 (amended): calling `resolve_duplicates` with an unrecognized
strategy name does not produce an error result; the strategy dispatch has no
else-branch, so the call silently succeeds with an empty action list, zero
affected records and no persisted mutation. -/
theorem claim_C3_invalid_strategy_silently_succeeds (analysis : AnalysisResult)
    (strategy : String) (dry_run : Bool) (fmt : Int → List Char) (now : List Char)
    (h1 : strategy ≠ "keep_latest") (h2 : strategy ≠ "merge")
    (h3 : strategy ≠ "flag_only") (h4 : analysis.duplicate_groups ≠ []) :
    resolve_duplicates analysis strategy dry_run fmt now =
      (.completed (if dry_run then "dry_run_completed" else "resolution_applied")
          strategy analysis.duplicate_groups.length 0 [],
        .connect :: (if dry_run then [] else [.commit])) := by
  unfold resolve_duplicates
  rw [if_neg (by simpa using h4), resolveGroups_invalid strategy fmt now h1 h2 h3]
  simp

/-- Witness for C3's amended claim at a concrete nonempty analysis. -/
theorem claim_C3_witness :
    resolve_duplicates ⟨2, [⟨0, [⟨1, [], 5⟩, ⟨2, [], 3⟩], 2, []⟩], 2, 100⟩
        "bogus_strategy" true (fun _ => []) [] =
      (.completed "dry_run_completed" "bogus_strategy" 1 0 [], [.connect]) := by
  have h := claim_C3_invalid_strategy_silently_succeeds
    ⟨2, [⟨0, [⟨1, [], 5⟩, ⟨2, [], 3⟩], 2, []⟩], 2, 100⟩
    "bogus_strategy" true (fun _ => []) []
    (by decide) (by decide) (by decide) (by simp)
  simpa using h

/-- Counterexample for C3 as stated: with an unrecognized strategy and a
nonempty group list, the returned action is the success marker
`dry_run_completed`, not the claimed `error`. -/
theorem claim_C3_counterexample :
    (resolve_duplicates ⟨2, [⟨0, [⟨1, [], 5⟩, ⟨2, [], 3⟩], 2, []⟩], 2, 100⟩
        "bogus_strategy" true (fun _ => []) []).1.action = "dry_run_completed" ∧
      "dry_run_completed" ≠ "error" := by
  constructor
  · rfl
  · decide

/-! ## Claim C7 -/

/-- The running-maximum fold used by Python `max(records, key=...)` returns
the first element attaining the maximal `created_at`. -/
theorem foldlMax_spec :
    ∀ (rs : List Record) (acc : Record),
      ∃ pre post m,
        acc :: rs = pre ++ m :: post ∧
        rs.foldl (fun best x => if best.created_at < x.created_at then x else best) acc = m ∧
        (∀ r ∈ pre, r.created_at < m.created_at) ∧
        (∀ r ∈ acc :: rs, r.created_at ≤ m.created_at) := by
  intro rs
  induction rs with
  | nil =>
    intro acc
    exact ⟨[], [], acc, rfl, rfl, by simp, by simp⟩
  | cons x rs ih =>
    intro acc
    by_cases hx : acc.created_at < x.created_at
    · obtain ⟨pre, post, m, hsplit, hfold, hpre, hle⟩ := ih x
      have hxm : x.created_at ≤ m.created_at := hle x (by simp)
      refine ⟨acc :: pre, post, m, by simp [hsplit], ?_, ?_, ?_⟩
      · simpa [List.foldl, if_pos hx] using hfold
      · intro r hr
        rcases List.mem_cons.mp hr with h | h
        · subst h; exact lt_of_lt_of_le hx hxm
        · exact hpre r h
      · intro r hr
        rcases List.mem_cons.mp hr with h | h
        · subst h; exact le_of_lt (lt_of_lt_of_le hx hxm)
        · exact hle r h
    · obtain ⟨pre, post, m, hsplit, hfold, hpre, hle⟩ := ih acc
      cases pre with
      | nil =>
        simp only [List.nil_append, List.cons.injEq] at hsplit
        refine ⟨[], x :: post, m, by simp [hsplit.1, hsplit.2], ?_, by simp, ?_⟩
        · simpa [List.foldl, if_neg hx] using hfold
        · intro r hr
          rcases List.mem_cons.mp hr with h | h
          · subst h; rw [← hsplit.1]
          · rcases List.mem_cons.mp h with h' | h'
            · subst h'; rw [← hsplit.1]; exact le_of_not_lt hx
            · exact hle r (List.mem_cons_of_mem _ h')
      | cons p pre' =>
        simp only [List.cons_append, List.cons.injEq] at hsplit
        have hacc : acc.created_at < m.created_at :=
          hpre acc (by rw [hsplit.1]; simp)
        refine ⟨acc :: x :: pre', post, m, by simp [hsplit.2], ?_, ?_, ?_⟩
        · simpa [List.foldl, if_neg hx] using hfold
        · intro r hr
          rcases List.mem_cons.mp hr with h | h
          · subst h; exact hacc
          · rcases List.mem_cons.mp h with h' | h'
            · subst h'; exact lt_of_le_of_lt (le_of_not_lt hx) hacc
            · exact hpre r (by simp [h'])
        · intro r hr
          rcases List.mem_cons.mp hr with h | h
          · subst h; exact le_of_lt hacc
          · rcases List.mem_cons.mp h with h' | h'
            · subst h'; exact le_trans (le_of_not_lt hx) (le_of_lt hacc)
            · exact hle r (by simp [h'])

theorem pyMax_spec (records : List Record) (hne : records ≠ []) :
    ∃ pre post m,
      pyMaxByCreated records = some m ∧
      records = pre ++ m :: post ∧
      (∀ r ∈ pre, r.created_at < m.created_at) ∧
      (∀ r ∈ records, r.created_at ≤ m.created_at) := by
  match records with
  | [] => exact absurd rfl hne
  | r :: rs =>
    obtain ⟨pre, post, m, hsplit, hfold, hpre, hle⟩ := foldlMax_spec rs r
    exact ⟨pre, post, m, by simp [pyMaxByCreated, hfold], hsplit, hpre, by
      intro x hx; exact hle x (hsplit ▸ hx)⟩

/-- The relation between a duplicate group and the `keep_latest` action
planned for it: the kept record is the first member attaining the maximal
timestamp, and exactly the other members' ids are marked. -/
def KeepLatestPlan (g : Group) (a : ResolutionAction) : Prop :=
  ∃ pre post m,
    g.records = pre ++ m :: post ∧
    (∀ r ∈ g.records, r.created_at ≤ m.created_at) ∧
    (∀ r ∈ pre, r.created_at < m.created_at) ∧
    a = .keepLatest m.id ((g.records.filter (fun r => r.id ≠ m.id)).map Record.id)
      g.records.length ∧
    (∀ r ∈ g.records,
      (r.id ∈ (g.records.filter (fun r2 => r2.id ≠ m.id)).map Record.id ↔ r.id ≠ m.id))

theorem resolveGroup_keepLatest (fmt : Int → List Char) (now : List Char)
    (g : Group) (m : Record) (hmax : pyMaxByCreated g.records = some m) :
    resolveGroup "keep_latest" fmt now g =
      .ok ([.keepLatest m.id ((g.records.filter (fun r => r.id ≠ m.id)).map Record.id)
          g.records.length],
        (g.records.filter (fun r => r.id ≠ m.id)).map
          (fun r => .updateMarkDuplicate m.id r.id)) := by
  simp [resolveGroup, hmax]

theorem resolveGroups_keepLatest (fmt : Int → List Char) (now : List Char) :
    ∀ gs : List Group, (∀ g ∈ gs, g.records ≠ []) →
      ∃ acts effs, resolveGroups "keep_latest" fmt now gs = .ok (acts, effs) ∧
        List.Forall₂ KeepLatestPlan gs acts := by
  intro gs
  induction gs with
  | nil => exact fun _ => ⟨[], [], rfl, List.Forall₂.nil⟩
  | cons g gs ih =>
    intro hall
    obtain ⟨acts, effs, hok, hfa⟩ := ih (fun g' hg' => hall g' (by simp [hg']))
    obtain ⟨pre, post, m, hmax, hsplit, hpre, hle⟩ :=
      pyMax_spec g.records (hall g (by simp))
    refine ⟨.keepLatest m.id ((g.records.filter (fun r => r.id ≠ m.id)).map Record.id)
        g.records.length :: acts,
      ((g.records.filter (fun r => r.id ≠ m.id)).map
        (fun r => DbEffect.updateMarkDuplicate m.id r.id)) ++ effs, ?_, ?_⟩
    · simp only [resolveGroups, resolveGroup_keepLatest fmt now g m hmax, hok]
      rfl
    · refine List.Forall₂.cons ⟨pre, post, m, hsplit, hle, hpre, rfl, ?_⟩ hfa
      intro r hr
      constructor
      · intro hmem
        obtain ⟨r2, hr2, hid⟩ := List.mem_map.mp hmem
        have := List.mem_filter.mp hr2
        rw [← hid]
        simpa using this.2
      · intro hne'
        exact List.mem_map.mpr ⟨r, List.mem_filter.mpr ⟨hr, by simpa using hne'⟩, rfl⟩

/-- Claim C7: under the `keep_latest` strategy, every planned action keeps
the group member with the maximal `created_at` (the first such member in
group order on ties, even when it is not the first member), and marks
exactly the other members' ids. -/
theorem claim_C7_keep_latest_max (analysis : AnalysisResult) (dry_run : Bool)
    (fmt : Int → List Char) (now : List Char)
    (hall : ∀ g ∈ analysis.duplicate_groups, g.records ≠ [])
    (hne : analysis.duplicate_groups ≠ []) :
    List.Forall₂ KeepLatestPlan analysis.duplicate_groups
      (resolve_duplicates analysis "keep_latest" dry_run fmt now).1.resolution_actions := by
  obtain ⟨acts, effs, hok, hfa⟩ :=
    resolveGroups_keepLatest fmt now analysis.duplicate_groups hall
  unfold resolve_duplicates
  rw [if_neg (by simpa using hne), hok]
  exact hfa

/-- Witness for C7: a concrete group whose newest member is in the middle,
with a timestamp tie broken by group order. -/
theorem claim_C7_witness :
    List.Forall₂ KeepLatestPlan
      [⟨0, [⟨1, [], 5⟩, ⟨2, [], 9⟩, ⟨3, [], 9⟩], 3, []⟩]
      (resolve_duplicates ⟨3, [⟨0, [⟨1, [], 5⟩, ⟨2, [], 9⟩, ⟨3, [], 9⟩], 3, []⟩], 3, 100⟩
        "keep_latest" true (fun _ => []) []).1.resolution_actions :=
  claim_C7_keep_latest_max
    ⟨3, [⟨0, [⟨1, [], 5⟩, ⟨2, [], 9⟩, ⟨3, [], 9⟩], 3, []⟩], 3, 100⟩
    true (fun _ => []) [] (by decide) (by decide)

/-! ## Claim C1 -/

theorem scanMembers_processed_subset (w : Weights) (threshold : ℚ) (lc : List Char) :
    ∀ (rest : List Record) (p : List Nat), ∀ x ∈ p,
      x ∈ (scanMembers w threshold lc rest p).2 := by
  intro rest
  induction rest with
  | nil => intro p x hx; simpa [scanMembers] using hx
  | cons r rest ih =>
    intro p x hx
    simp only [scanMembers]
    split
    · exact ih p x hx
    · split
      · exact ih (r.id :: p) x (by simp [hx])
      · exact ih p x hx

theorem scanMembers_mem_processed (w : Weights) (threshold : ℚ) (lc : List Char) :
    ∀ (rest : List Record) (p : List Nat), ∀ r ∈ (scanMembers w threshold lc rest p).1,
      r.id ∈ (scanMembers w threshold lc rest p).2 := by
  intro rest
  induction rest with
  | nil => intro p r hr; simp [scanMembers] at hr
  | cons x rest ih =>
    intro p r hr
    simp only [scanMembers] at hr ⊢
    split at hr
    · rename_i h; rw [if_pos h]; exact ih p r hr
    · rename_i h
      rw [if_neg h]
      split at hr
      · rename_i hscore
        rw [if_pos hscore]
        rcases List.mem_cons.mp hr with h' | h'
        · subst h'
          exact scanMembers_processed_subset w threshold lc rest (r.id :: p) r.id (by simp)
        · exact ih (x.id :: p) r h'
      · rename_i hscore
        rw [if_neg hscore]
        exact ih p r hr

theorem scanMembers_not_in_start (w : Weights) (threshold : ℚ) (lc : List Char) :
    ∀ (rest : List Record) (p : List Nat), ∀ r ∈ (scanMembers w threshold lc rest p).1,
      r.id ∉ p := by
  intro rest
  induction rest with
  | nil => intro p r hr; simp [scanMembers] at hr
  | cons x rest ih =>
    intro p r hr
    simp only [scanMembers] at hr
    split at hr
    · exact ih p r hr
    · rename_i hxp
      split at hr
      · rcases List.mem_cons.mp hr with h' | h'
        · subst h'; exact hxp
        · intro hmem
          exact ih (x.id :: p) r h' (by simp [hmem])
      · exact ih p r hr

theorem scanMembers_score (w : Weights) (threshold : ℚ) (lc : List Char) :
    ∀ (rest : List Record) (p : List Nat), ∀ r ∈ (scanMembers w threshold lc rest p).1,
      threshold ≤ (calculate_similarity w lc r.content).composite_similarity := by
  intro rest
  induction rest with
  | nil => intro p r hr; simp [scanMembers] at hr
  | cons x rest ih =>
    intro p r hr
    simp only [scanMembers] at hr
    split at hr
    · exact ih p r hr
    · split at hr
      · rename_i hscore
        rcases List.mem_cons.mp hr with h' | h'
        · subst h'; exact hscore
        · exact ih (x.id :: p) r h'
      · exact ih p r hr

theorem clusterAux_ids_not_processed (w : Weights) (threshold : ℚ) :
    ∀ (recs : List Record) (p : List Nat), ∀ g ∈ clusterAux w threshold recs p,
      ∀ r ∈ g, r.id ∉ p := by
  intro recs
  induction recs with
  | nil => intro p g hg; simp [clusterAux] at hg
  | cons x recs ih =>
    intro p g hg
    simp only [clusterAux] at hg
    split at hg
    · exact ih p g hg
    · rename_i hxp
      split at hg
      · intro r hr hrp
        exact ih (x.id :: (scanMembers w threshold x.content recs p).2) g hg r hr
          (by
            have hsub := scanMembers_processed_subset w threshold x.content recs p r.id hrp
            simp [hsub])
      · rcases List.mem_cons.mp hg with h' | h'
        · subst h'
          intro r hr hrp
          rcases List.mem_cons.mp hr with h2 | h2
          · subst h2; exact hxp hrp
          · exact scanMembers_not_in_start w threshold x.content recs p r h2 hrp
        · intro r hr hrp
          exact ih (x.id :: (scanMembers w threshold x.content recs p).2) g h' r hr
            (by
              have hsub := scanMembers_processed_subset w threshold x.content recs p r.id hrp
              simp [hsub])

theorem clusterAux_pairwise_disjoint (w : Weights) (threshold : ℚ) :
    ∀ (recs : List Record) (p : List Nat),
      (clusterAux w threshold recs p).Pairwise
        (fun g h => ∀ r ∈ g, ∀ r2 ∈ h, r.id ≠ r2.id) := by
  intro recs
  induction recs with
  | nil => intro p; simp [clusterAux]
  | cons x recs ih =>
    intro p
    simp only [clusterAux]
    split
    · exact ih p
    · split
      · exact ih _
      · refine List.Pairwise.cons ?_ (ih _)
        intro g' hg' r hr r2 hr2 heq
        have hnotp := clusterAux_ids_not_processed w threshold recs
          (x.id :: (scanMembers w threshold x.content recs p).2) g' hg' r2 hr2
        rcases List.mem_cons.mp hr with h2 | h2
        · subst h2
          exact hnotp (by simp [heq.symm])
        · have := scanMembers_mem_processed w threshold x.content recs p r h2
          exact hnotp (by simp [← heq, this])

/-- Claim C1: for every input record list with unique ids and every
threshold, the duplicate groups emitted by `find_duplicates` are pairwise
disjoint on record ids: no id occurs in two different groups. -/
theorem claim_C1_groups_disjoint (w : Weights) (threshold : ℚ)
    (records : List Record) (hids : (records.map Record.id).Nodup) :
    (find_duplicates w threshold records).duplicate_groups.Pairwise
      (fun g h => ∀ x ∈ g.records.map Record.id, x ∉ h.records.map Record.id) := by
  unfold find_duplicates
  simp only
  have hraw := clusterAux_pairwise_disjoint w threshold records []
  rw [List.pairwise_map]
  have henum : (clusterAux w threshold records []).enum.Pairwise
      (fun a b => ∀ r ∈ a.2, ∀ r2 ∈ b.2, r.id ≠ r2.id) := by
    have : ∀ (n : Nat) (l : List (List Record)),
        l.Pairwise (fun g h => ∀ r ∈ g, ∀ r2 ∈ h, r.id ≠ r2.id) →
        (l.enumFrom n).Pairwise (fun a b => ∀ r ∈ a.2, ∀ r2 ∈ b.2, r.id ≠ r2.id) := by
      intro n l
      induction l generalizing n with
      | nil => intro _; simp
      | cons g l ihl =>
        intro hp
        rcases List.pairwise_cons.mp hp with ⟨hhead, htail⟩
        refine List.Pairwise.cons ?_ (ihl (n + 1) htail)
        intro b hb
        have hb2 : b.2 ∈ l := by
          have := List.mem_enumFrom hb
          exact List.mem_iff_get.mpr (by
            obtain ⟨h1, h2, h3⟩ := this
            exact ⟨⟨b.1 - (n + 1), by omega⟩, by simpa using h3.symm⟩)
        exact hhead b.2 hb2
    simpa [List.enum] using this 0 (clusterAux w threshold records []) hraw
  refine henum.imp ?_
  intro a b hab
  intro idx hidx hmem
  simp only [mkGroup] at hidx hmem
  obtain ⟨r, hr, hrid⟩ := List.mem_map.mp hidx
  obtain ⟨r2, hr2, hrid2⟩ := List.mem_map.mp hmem
  exact hab r hr r2 hr2 (by rw [hrid, hrid2])

/-- Witness for C1 at a concrete record list: two near-duplicates and one
unrelated record. -/
theorem claim_C1_witness :
    (find_duplicates defaultWeights (85/100)
        [⟨1, ("hi #1".toList), 30⟩, ⟨2, ("hi #2".toList), 20⟩, ⟨3, ("yo".toList), 10⟩]).duplicate_groups.Pairwise
      (fun g h => ∀ x ∈ g.records.map Record.id, x ∉ h.records.map Record.id) :=
  claim_C1_groups_disjoint defaultWeights (85/100)
    [⟨1, ("hi #1".toList), 30⟩, ⟨2, ("hi #2".toList), 20⟩, ⟨3, ("yo".toList), 10⟩]
    (by decide)

/-! ## Claim C9 -/

/-- Every record stored in a checkpoint group entry carries that entry's
signature as key. -/
def GroupsKeyed (digest : List Char → List Char)
    (groups : List (List Char × List Record)) : Prop :=
  ∀ e ∈ groups, ∀ r ∈ e.2, generate_checkpoint_signature digest r.content = e.1

theorem addToGroups_keyed {digest : List Char → List Char}
    {groups : List (List Char × List Record)} (r : Record)
    (hk : GroupsKeyed digest groups) :
    GroupsKeyed digest
      (addToGroups (generate_checkpoint_signature digest r.content) r groups) := by
  induction groups with
  | nil =>
    intro e he r2 hr2
    simp only [addToGroups] at he
    rcases List.mem_singleton.mp he with rfl
    rcases List.mem_singleton.mp hr2 with rfl
    rfl
  | cons e0 groups ih =>
    intro e he r2 hr2
    simp only [addToGroups] at he
    split at he
    · rename_i hkey
      rcases List.mem_cons.mp he with h | h
      · subst h
        rcases List.mem_append.mp hr2 with h2 | h2
        · exact hk e0 (by simp) r2 h2
        · rcases List.mem_singleton.mp h2 with rfl
          exact hkey.symm
      · exact hk e (List.mem_cons_of_mem _ h) r2 hr2
    · rcases List.mem_cons.mp he with h | h
      · exact hk e (by simp [h]) r2 hr2
      · exact ih (fun e' he' r' hr' => hk e' (List.mem_cons_of_mem _ he') r' hr') e h r2 hr2

theorem addToGroups_keys_subset (key : List Char) (r : Record)
    (groups : List (List Char × List Record)) :
    ∀ k ∈ (addToGroups key r groups).map Prod.fst,
      k = key ∨ k ∈ groups.map Prod.fst := by
  induction groups with
  | nil => intro k hk; simp [addToGroups] at hk; exact Or.inl hk
  | cons e1 groups ih =>
    intro k hk
    simp only [addToGroups] at hk
    split at hk
    · simp only [List.map_cons] at hk
      rcases List.mem_cons.mp hk with h | h
      · exact Or.inr (by simp [h])
      · exact Or.inr (by simp only [List.map_cons]; exact List.mem_cons_of_mem _ h)
    · simp only [List.map_cons] at hk
      rcases List.mem_cons.mp hk with h | h
      · exact Or.inr (by simp [h])
      · rcases ih k h with h2 | h2
        · exact Or.inl h2
        · exact Or.inr (by simp only [List.map_cons]; exact List.mem_cons_of_mem _ h2)

theorem addToGroups_keys_nodup {groups : List (List Char × List Record)}
    (key : List Char) (r : Record) (hnd : (groups.map Prod.fst).Nodup) :
    ((addToGroups key r groups).map Prod.fst).Nodup := by
  induction groups with
  | nil => simp [addToGroups]
  | cons e0 groups ih =>
    simp only [addToGroups]
    split
    · simpa using hnd
    · rename_i hne
      simp only [List.map_cons, List.nodup_cons] at hnd ⊢
      refine ⟨?_, ih hnd.2⟩
      intro hmem
      rcases addToGroups_keys_subset key r groups e0.1 hmem with h | h
      · exact hne h
      · exact hnd.1 h

theorem addToGroups_mem_self {groups : List (List Char × List Record)}
    (key : List Char) (r : Record) :
    ∃ e ∈ addToGroups key r groups, e.1 = key ∧ r ∈ e.2 := by
  induction groups with
  | nil => exact ⟨(key, [r]), by simp [addToGroups]⟩
  | cons e0 groups ih =>
    simp only [addToGroups]
    split
    · rename_i hkey
      exact ⟨(e0.1, e0.2 ++ [r]), by simp [hkey]⟩
    · obtain ⟨e, he, hek, her⟩ := ih
      exact ⟨e, by simp [he], hek, her⟩

theorem addToGroups_mem_mono {groups : List (List Char × List Record)}
    (key : List Char) (r : Record) {e0 : List Char × List Record} {r0 : Record}
    (h : e0 ∈ groups ∧ r0 ∈ e0.2) :
    ∃ e ∈ addToGroups key r groups, e.1 = e0.1 ∧ r0 ∈ e.2 := by
  induction groups with
  | nil => simp at h
  | cons e1 groups ih =>
    simp only [addToGroups]
    rcases List.mem_cons.mp h.1 with h1 | h1
    · subst h1
      split
      · exact ⟨(e0.1, e0.2 ++ [r]), by simp, rfl, by simp [h.2]⟩
      · exact ⟨e0, by simp, rfl, h.2⟩
    · split
      · exact ⟨e0, by simp [h1], rfl, h.2⟩
      · obtain ⟨e, he, hek, her⟩ := ih ⟨h1, h.2⟩
        exact ⟨e, by simp [he], hek, her⟩

theorem buildCheckpointGroups_keyed (isCp : List Char → Bool)
    (digest : List Char → List Char) :
    ∀ (recs : List Record) (groups : List (List Char × List Record))
      (regular : List Record), GroupsKeyed digest groups →
      GroupsKeyed digest (buildCheckpointGroups isCp digest recs groups regular).1 := by
  intro recs
  induction recs with
  | nil => intro groups regular hk; exact hk
  | cons r recs ih =>
    intro groups regular hk
    simp only [buildCheckpointGroups]
    split
    · exact ih _ _ (addToGroups_keyed r hk)
    · exact ih _ _ hk

theorem buildCheckpointGroups_nodup (isCp : List Char → Bool)
    (digest : List Char → List Char) :
    ∀ (recs : List Record) (groups : List (List Char × List Record))
      (regular : List Record), (groups.map Prod.fst).Nodup →
      (((buildCheckpointGroups isCp digest recs groups regular).1).map Prod.fst).Nodup := by
  intro recs
  induction recs with
  | nil => intro groups regular hnd; exact hnd
  | cons r recs ih =>
    intro groups regular hnd
    simp only [buildCheckpointGroups]
    split
    · exact ih _ _ (addToGroups_keys_nodup _ r hnd)
    · exact ih _ _ hnd

theorem buildCheckpointGroups_mem_mono (isCp : List Char → Bool)
    (digest : List Char → List Char) :
    ∀ (recs : List Record) (groups : List (List Char × List Record))
      (regular : List Record) (e0 : List Char × List Record) (r0 : Record),
      e0 ∈ groups → r0 ∈ e0.2 →
      ∃ e ∈ (buildCheckpointGroups isCp digest recs groups regular).1,
        e.1 = e0.1 ∧ r0 ∈ e.2 := by
  intro recs
  induction recs with
  | nil => intro groups regular e0 r0 he hr; exact ⟨e0, he, rfl, hr⟩
  | cons r recs ih =>
    intro groups regular e0 r0 he hr
    simp only [buildCheckpointGroups]
    split
    · obtain ⟨e1, he1, hk1, hr1⟩ :=
        addToGroups_mem_mono (generate_checkpoint_signature digest r.content) r ⟨he, hr⟩
      obtain ⟨e2, he2, hk2, hr2⟩ := ih _ regular e1 r0 he1 hr1
      exact ⟨e2, he2, hk2.trans hk1, hr2⟩
    · exact ih _ _ e0 r0 he hr

theorem buildCheckpointGroups_mem_self (isCp : List Char → Bool)
    (digest : List Char → List Char) :
    ∀ (recs : List Record) (groups : List (List Char × List Record))
      (regular : List Record) (r : Record), r ∈ recs → isCp r.content = true →
      ∃ e ∈ (buildCheckpointGroups isCp digest recs groups regular).1,
        e.1 = generate_checkpoint_signature digest r.content ∧ r ∈ e.2 := by
  intro recs
  induction recs with
  | nil => intro groups regular r hr; simp at hr
  | cons r0 recs ih =>
    intro groups regular r hr hcp
    rcases List.mem_cons.mp hr with h | h
    · subst h
      simp only [buildCheckpointGroups, if_pos hcp]
      obtain ⟨e1, he1, hk1, hr1⟩ :=
        @addToGroups_mem_self groups
          (generate_checkpoint_signature digest r.content) r
      obtain ⟨e2, he2, hk2, hr2⟩ :=
        buildCheckpointGroups_mem_mono isCp digest recs _ regular e1 r he1 hr1
      exact ⟨e2, he2, hk2.trans hk1, hr2⟩
    · simp only [buildCheckpointGroups]
      split
      · exact ih _ regular r h hcp
      · exact ih _ _ r h hcp

/-- Claim C9: among the records recognized as checkpoint observations, two
records are placed in the same signature group of the redundancy analysis
iff their checkpoint signatures are identical.  `isCp` abstracts the
configured recognition regexes and `digest` the stable hash. -/
theorem claim_C9_signature_grouping (isCp : List Char → Bool)
    (digest : List Char → List Char) (records : List Record) (a b : Record)
    (ha : a ∈ records) (hb : b ∈ records)
    (hca : isCp a.content = true) (hcb : isCp b.content = true) :
    (∃ e ∈ (analyze_checkpoint_redundancy isCp digest records).1,
        a ∈ e.2 ∧ b ∈ e.2) ↔
      generate_checkpoint_signature digest a.content =
        generate_checkpoint_signature digest b.content := by
  constructor
  · rintro ⟨e, he, hae, hbe⟩
    have hk := buildCheckpointGroups_keyed isCp digest records [] []
      (fun e' he' => by simp at he')
    rw [hk e he a hae, hk e he b hbe]
  · intro hsig
    obtain ⟨ea, hea, hka, hra⟩ :=
      buildCheckpointGroups_mem_self isCp digest records [] [] a ha hca
    obtain ⟨eb, heb, hkb, hrb⟩ :=
      buildCheckpointGroups_mem_self isCp digest records [] [] b hb hcb
    have hnd := buildCheckpointGroups_nodup isCp digest records [] [] (by simp)
    have : ea = eb := by
      have hinj := List.inj_on_of_nodup_map hnd
      exact hinj hea heb (by rw [hka, hkb, hsig])
    subst this
    exact ⟨ea, hea, hra, hrb⟩

/-- Witness for C9: two auto-save records with identical signatures and one
with a different signature, with the identity digest and an
accept-everything pattern. -/
theorem claim_C9_witness :
    (∃ e ∈ (analyze_checkpoint_redundancy (fun _ => true) (fun s => s)
        [⟨1, ("Auto-save at 2024-01-01".toList), 1⟩,
         ⟨2, ("Auto-save at 2024-01-02".toList), 2⟩,
         ⟨3, ("Meeting notes".toList), 3⟩]).1,
        (⟨1, ("Auto-save at 2024-01-01".toList), 1⟩ : Record) ∈ e.2 ∧
        (⟨2, ("Auto-save at 2024-01-02".toList), 2⟩ : Record) ∈ e.2) ↔
      generate_checkpoint_signature (fun s => s) ("Auto-save at 2024-01-01".toList) =
        generate_checkpoint_signature (fun s => s) ("Auto-save at 2024-01-02".toList) :=
  claim_C9_signature_grouping (fun _ => true) (fun s => s)
    [⟨1, ("Auto-save at 2024-01-01".toList), 1⟩,
     ⟨2, ("Auto-save at 2024-01-02".toList), 2⟩,
     ⟨3, ("Meeting notes".toList), 3⟩]
    ⟨1, ("Auto-save at 2024-01-01".toList), 1⟩
    ⟨2, ("Auto-save at 2024-01-02".toList), 2⟩
    (by simp) (by simp) rfl rfl

/-! ## Claim C6 -/

def upperChars : List Char :=
  ['A', 'B', 'C', 'D', 'E', 'F', 'G', 'H', 'I', 'J', 'K', 'L', 'M',
   'N', 'O', 'P', 'Q', 'R', 'S', 'T', 'U', 'V', 'W', 'X', 'Y', 'Z']

theorem lowerChar_of_not_upper {c : Char} (h : c ∉ upperChars) : lowerChar c = c := by
  simp only [upperChars, List.mem_cons, List.not_mem_nil, or_false, not_or] at h
  unfold lowerChar
  rw [if_neg h.1, if_neg h.2.1, if_neg h.2.2.1, if_neg h.2.2.2.1, if_neg h.2.2.2.2.1, if_neg h.2.2.2.2.2.1, if_neg h.2.2.2.2.2.2.1, if_neg h.2.2.2.2.2.2.2.1, if_neg h.2.2.2.2.2.2.2.2.1, if_neg h.2.2.2.2.2.2.2.2.2.1, if_neg h.2.2.2.2.2.2.2.2.2.2.1, if_neg h.2.2.2.2.2.2.2.2.2.2.2.1, if_neg h.2.2.2.2.2.2.2.2.2.2.2.2.1, if_neg h.2.2.2.2.2.2.2.2.2.2.2.2.2.1, if_neg h.2.2.2.2.2.2.2.2.2.2.2.2.2.2.1, if_neg h.2.2.2.2.2.2.2.2.2.2.2.2.2.2.2.1, if_neg h.2.2.2.2.2.2.2.2.2.2.2.2.2.2.2.2.1, if_neg h.2.2.2.2.2.2.2.2.2.2.2.2.2.2.2.2.2.1, if_neg h.2.2.2.2.2.2.2.2.2.2.2.2.2.2.2.2.2.2.1, if_neg h.2.2.2.2.2.2.2.2.2.2.2.2.2.2.2.2.2.2.2.1, if_neg h.2.2.2.2.2.2.2.2.2.2.2.2.2.2.2.2.2.2.2.2.1, if_neg h.2.2.2.2.2.2.2.2.2.2.2.2.2.2.2.2.2.2.2.2.2.1, if_neg h.2.2.2.2.2.2.2.2.2.2.2.2.2.2.2.2.2.2.2.2.2.2.1, if_neg h.2.2.2.2.2.2.2.2.2.2.2.2.2.2.2.2.2.2.2.2.2.2.2.1, if_neg h.2.2.2.2.2.2.2.2.2.2.2.2.2.2.2.2.2.2.2.2.2.2.2.2.1, if_neg h.2.2.2.2.2.2.2.2.2.2.2.2.2.2.2.2.2.2.2.2.2.2.2.2.2]

theorem lowerChar_not_upper (c : Char) : lowerChar c ∉ upperChars := by
  by_cases hc : c ∈ upperChars
  · simp only [upperChars, List.mem_cons, List.not_mem_nil, or_false] at hc
    rcases hc with rfl|rfl|rfl|rfl|rfl|rfl|rfl|rfl|rfl|rfl|rfl|rfl|rfl|rfl|rfl|rfl|rfl|rfl|rfl|rfl|rfl|rfl|rfl|rfl|rfl|rfl <;> decide
  · rw [lowerChar_of_not_upper hc]
    simpa [upperChars] using hc

theorem lowerChar_idem (c : Char) : lowerChar (lowerChar c) = lowerChar c :=
  lowerChar_of_not_upper (lowerChar_not_upper c)

theorem lowerChar_space {c : Char} (h : isSpaceC c = true) : lowerChar c = c := by
  apply lowerChar_of_not_upper
  simp only [isSpaceC, Bool.or_eq_true, decide_eq_true_eq] at h
  rcases h with ((((h | h) | h) | h) | h) | h <;> subst h <;> decide

theorem lowerChar_word {c : Char} (h : isWordC c = true) :
    isWordC (lowerChar c) = true := by
  by_cases hc : c ∈ upperChars
  · simp only [upperChars, List.mem_cons, List.not_mem_nil, or_false] at hc
    rcases hc with rfl|rfl|rfl|rfl|rfl|rfl|rfl|rfl|rfl|rfl|rfl|rfl|rfl|rfl|rfl|rfl|rfl|rfl|rfl|rfl|rfl|rfl|rfl|rfl|rfl|rfl <;> decide
  · rw [lowerChar_of_not_upper hc]
    exact h

theorem word_not_space {c : Char} (h : isWordC c = true) : isSpaceC c = false := by
  by_contra hs
  simp only [Bool.not_eq_false] at hs
  simp only [isSpaceC, Bool.or_eq_true, decide_eq_true_eq] at hs
  rcases hs with ((((h' | h') | h') | h') | h') | h' <;> subst h' <;> simp [isWordC] at h

theorem matchDate_none {s : List Char} (h : '-' ∉ s) : matchDate s = none := by
  cases hm : matchDate s with
  | none => rfl
  | some r =>
    exfalso
    unfold matchDate andThen at hm
    cases h1 : chompCount isDigitC 4 s with
    | none => simp [h1] at hm
    | some s1 =>
      rw [h1] at hm
      simp only [Option.some_bind] at hm
      cases h2 : chompChar '-' s1 with
      | none => simp [h2] at hm
      | some s2 =>
        exact h ((chompCount_sublist h1).mem (chompChar_mem h2))

theorem matchTime_none {s : List Char} (h : ':' ∉ s) : matchTime s = none := by
  cases hm : matchTime s with
  | none => rfl
  | some r =>
    exfalso
    unfold matchTime andThen at hm
    cases h1 : chompCount isDigitC 2 s with
    | none => simp [h1] at hm
    | some s1 =>
      rw [h1] at hm
      simp only [Option.some_bind] at hm
      cases h2 : chompChar ':' s1 with
      | none => simp [h2] at hm
      | some s2 =>
        exact h ((chompCount_sublist h1).mem (chompChar_mem h2))

theorem matchIdTag_none {s : List Char} (h : ':' ∉ s) : matchIdTag s = none := by
  cases hm : matchIdTag s with
  | none => rfl
  | some r =>
    exfalso
    unfold matchIdTag andThen at hm
    cases h1 : chompChar 'I' s with
    | none => simp [h1] at hm
    | some s1 =>
      rw [h1] at hm
      simp only [Option.some_bind] at hm
      cases h2 : chompChar 'D' s1 with
      | none => simp [h2] at hm
      | some s2 =>
        rw [h2] at hm
        simp only [Option.some_bind] at hm
        cases h3 : chompChar ':' s2 with
        | none => simp [h3] at hm
        | some s3 =>
          exact h ((chompChar_sublist h1).mem ((chompChar_sublist h2).mem
            (chompChar_mem h3)))

theorem matchHash_none {s : List Char} (h : '#' ∉ s) : matchHash s = none := by
  cases hm : matchHash s with
  | none => rfl
  | some r =>
    exfalso
    unfold matchHash andThen at hm
    cases h1 : chompChar '#' s with
    | none => simp [h1] at hm
    | some s1 => exact h (chompChar_mem h1)

/-- A substitution whose pattern never matches inside a class of strings is
the identity there. -/
theorem reSubR_id {m : Matcher} {repl : List Char} (P : Char → Prop)
    (hm : ∀ s : List Char, (∀ c ∈ s, P c) → m.1 s = none) :
    ∀ s : List Char, (∀ c ∈ s, P c) → reSubR m repl s = s := by
  intro s
  induction s with
  | nil => intro _; rfl
  | cons c cs ih =>
    intro hs
    rw [reSubR_cons, hm (c :: cs) hs]
    rw [ih (fun c' hc' => hs c' (List.mem_cons_of_mem _ hc'))]

theorem head?_dropWhile (p : Char → Bool) (l : List Char) :
    ∀ c ∈ (l.dropWhile p).head?, p c = false := by
  induction l with
  | nil => simp
  | cons d ds ih =>
    intro c hc
    by_cases hd : p d
    · rw [List.dropWhile_cons_of_pos hd] at hc
      exact ih c hc
    · rw [List.dropWhile_cons_of_neg hd] at hc
      simp only [List.head?_cons, Option.mem_some_iff] at hc
      subst hc
      simpa using hd

theorem prefix_head? {l1 l2 : List Char} (h : l1.IsPrefix l2) (hne : l1 ≠ []) :
    l2.head? = l1.head? := by
  obtain ⟨t, rfl⟩ := h
  cases l1 with
  | nil => exact absurd rfl hne
  | cons a l => rfl

theorem dropWhile_eq_self_of_head {p : Char → Bool} {l : List Char}
    (h : ∀ c ∈ l.head?, p c = false) : l.dropWhile p = l := by
  cases l with
  | nil => rfl
  | cons c cs =>
    have hc : p c = false := h c (by simp)
    simp [List.dropWhile_cons, hc]

theorem pyStrip_sublist (s : List Char) : (pyStrip s).Sublist s := by
  unfold pyStrip
  have h1 : (s.dropWhile isSpaceC).Sublist s := List.dropWhile_sublist _
  have h2 : ((s.dropWhile isSpaceC).reverse.dropWhile isSpaceC).Sublist
      (s.dropWhile isSpaceC).reverse := List.dropWhile_sublist _
  have h3 := h2.reverse
  rw [List.reverse_reverse] at h3
  exact h3.trans h1

theorem pyStrip_pref (s : List Char) : (pyStrip s).IsPrefix (s.dropWhile isSpaceC) := by
  unfold pyStrip
  have h2 : ((s.dropWhile isSpaceC).reverse.dropWhile isSpaceC).IsSuffix
      (s.dropWhile isSpaceC).reverse := List.dropWhile_suffix _
  have := h2.reverse
  rwa [List.reverse_reverse] at this

theorem pyStrip_head (s : List Char) :
    ∀ c ∈ (pyStrip s).head?, isSpaceC c = false := by
  intro c hc
  have hne : pyStrip s ≠ [] := by
    intro h
    rw [h] at hc
    simp at hc
  have heq := prefix_head? (pyStrip_pref s) hne
  exact head?_dropWhile isSpaceC s c (by rw [heq]; exact hc)

theorem pyStrip_getLast (s : List Char) :
    ∀ c ∈ (pyStrip s).getLast?, isSpaceC c = false := by
  intro c hc
  rw [← List.head?_reverse] at hc
  unfold pyStrip at hc
  rw [List.reverse_reverse] at hc
  exact head?_dropWhile isSpaceC _ c hc

theorem pyStrip_eq_self {s : List Char}
    (h1 : ∀ c ∈ s.head?, isSpaceC c = false)
    (h2 : ∀ c ∈ s.getLast?, isSpaceC c = false) : pyStrip s = s := by
  unfold pyStrip
  rw [dropWhile_eq_self_of_head h1,
    dropWhile_eq_self_of_head (by simpa using h2), List.reverse_reverse]

theorem collapseWsAux_head_true (s : List Char) :
    ∀ c ∈ (collapseWsAux true s).head?, isSpaceC c = false := by
  induction s with
  | nil => intro c hc; simp [collapseWsAux] at hc
  | cons d ds ih =>
    intro c hc
    by_cases hd : isSpaceC d
    · simp only [collapseWsAux, hd, if_true] at hc
      exact ih c hc
    · simp only [collapseWsAux, hd, Bool.false_eq_true, if_false] at hc
      simp only [List.head?_cons, Option.mem_some_iff] at hc
      subst hc
      simpa using hd

theorem collapseWsAux_chars (s : List Char) :
    ∀ b, ∀ c ∈ collapseWsAux b s, c = ' ' ∨ (c ∈ s ∧ isSpaceC c = false) := by
  induction s with
  | nil => intro b c hc; simp [collapseWsAux] at hc
  | cons d ds ih =>
    intro b c hc
    simp only [collapseWsAux] at hc
    by_cases hd : isSpaceC d
    · rw [if_pos hd] at hc
      split at hc
      · rcases ih true c hc with h | h
        · exact Or.inl h
        · exact Or.inr ⟨List.mem_cons_of_mem _ h.1, h.2⟩
      · rcases List.mem_cons.mp hc with h | h
        · exact Or.inl h
        · rcases ih true c h with h' | h'
          · exact Or.inl h'
          · exact Or.inr ⟨List.mem_cons_of_mem _ h'.1, h'.2⟩
    · rw [if_neg hd] at hc
      rcases List.mem_cons.mp hc with h | h
      · subst h; exact Or.inr ⟨by simp, by simpa using hd⟩
      · rcases ih false c h with h' | h'
        · exact Or.inl h'
        · exact Or.inr ⟨List.mem_cons_of_mem _ h'.1, h'.2⟩

theorem collapseWsAux_chain (s : List Char) :
    ∀ b, List.Chain' (fun x y => isSpaceC x = false ∨ isSpaceC y = false)
      (collapseWsAux b s) := by
  induction s with
  | nil => intro b; simp [collapseWsAux]
  | cons d ds ih =>
    intro b
    simp only [collapseWsAux]
    by_cases hd : isSpaceC d
    · rw [if_pos hd]
      split
      · exact ih true
      · refine List.chain'_cons'.mpr ⟨?_, ih true⟩
        intro y hy
        exact Or.inr (collapseWsAux_head_true ds y hy)
    · rw [if_neg hd]
      refine List.chain'_cons'.mpr ⟨?_, ih false⟩
      intro y _
      exact Or.inl (by simpa using hd)

theorem collapseWsAux_eq_self (s : List Char) :
    ∀ b, (b = true → ∀ c ∈ s.head?, isSpaceC c = false) →
      (∀ c ∈ s, isSpaceC c = true → c = ' ') →
      List.Chain' (fun x y => isSpaceC x = false ∨ isSpaceC y = false) s →
      collapseWsAux b s = s := by
  induction s with
  | nil => intro b _ _ _; rfl
  | cons d ds ih =>
    intro b hb hsp hch
    simp only [collapseWsAux]
    rcases List.chain'_cons'.mp hch with ⟨hhd, hch'⟩
    by_cases hd : isSpaceC d
    · rw [if_pos hd]
      have hb' : b = false := by
        cases b with
        | false => rfl
        | true => exact absurd (hb rfl d (by simp)) (by simp [hd])
      subst hb'
      rw [if_neg (by simp)]
      have hhead : ∀ c ∈ ds.head?, isSpaceC c = false := by
        intro c hc
        rcases hhd c hc with h | h
        · rw [hd] at h; exact absurd h (by simp)
        · exact h
      rw [hsp d (by simp) hd,
        ih true (fun _ => hhead) (fun c hc => hsp c (List.mem_cons_of_mem _ hc)) hch']
    · rw [if_neg hd]
      rw [ih false (by simp) (fun c hc => hsp c (List.mem_cons_of_mem _ hc)) hch']

/-- The canonical shape of normalizer output on punctuation-free input:
lower-case-stable word characters separated by isolated single spaces, with
no leading or trailing space. -/
def CanonC (s : List Char) : Prop :=
  (∀ c ∈ s, isWordC c = true ∨ c = ' ') ∧
  (∀ c ∈ s, lowerChar c = c) ∧
  List.Chain' (fun x y => isSpaceC x = false ∨ isSpaceC y = false) s ∧
  (∀ c ∈ s.head?, isSpaceC c = false) ∧
  (∀ c ∈ s.getLast?, isSpaceC c = false)

theorem normalize_canon (t : List Char)
    (ht : ∀ c ∈ t, isWordC c = true ∨ isSpaceC c = true) :
    CanonC (normalize_text t) := by
  unfold normalize_text
  set u0 := pyStrip (pyLower t) with hu0
  have hu0chars : ∀ c ∈ u0, (isWordC c = true ∨ isSpaceC c = true) ∧ lowerChar c = c := by
    intro c hc
    have hmem : c ∈ pyLower t := (pyStrip_sublist _).mem hc
    obtain ⟨c0, hc0, rfl⟩ := List.mem_map.mp hmem
    rcases ht c0 hc0 with h | h
    · exact ⟨Or.inl (lowerChar_word h), lowerChar_idem c0⟩
    · rw [lowerChar_space h]
      exact ⟨Or.inr h, lowerChar_space h⟩
  have hWS : ∀ P : List Char → List Char,
      (∀ s, (∀ c ∈ s, isWordC c = true ∨ isSpaceC c = true) → P s = s) → True := fun _ _ => trivial
  have hnomatch : ∀ (s : List Char), (∀ c ∈ s, isWordC c = true ∨ isSpaceC c = true) →
      ('-' ∉ s ∧ ':' ∉ s ∧ '#' ∉ s) := by
    intro s hs
    refine ⟨fun hm => ?_, fun hm => ?_, fun hm => ?_⟩ <;>
      rcases hs _ hm with h | h <;> simp [isWordC, isSpaceC] at h
  have hdate : reSubR dateMatcher [] u0 = u0 :=
    reSubR_id (fun c => isWordC c = true ∨ isSpaceC c = true)
      (fun s hs => matchDate_none (hnomatch s hs).1) u0 (fun c hc => (hu0chars c hc).1)
  rw [hdate]
  have htime : reSubR timeMatcher [] u0 = u0 :=
    reSubR_id (fun c => isWordC c = true ∨ isSpaceC c = true)
      (fun s hs => matchTime_none (hnomatch s hs).2.1) u0 (fun c hc => (hu0chars c hc).1)
  rw [htime]
  have hid : reSubR idTagMatcher [] u0 = u0 :=
    reSubR_id (fun c => isWordC c = true ∨ isSpaceC c = true)
      (fun s hs => matchIdTag_none (hnomatch s hs).2.1) u0 (fun c hc => (hu0chars c hc).1)
  rw [hid]
  have hhash : reSubR hashMatcher [] u0 = u0 :=
    reSubR_id (fun c => isWordC c = true ∨ isSpaceC c = true)
      (fun s hs => matchHash_none (hnomatch s hs).2.2) u0 (fun c hc => (hu0chars c hc).1)
  rw [hhash]
  set v := collapseWs u0 with hv
  have hvchars : ∀ c ∈ v, (isWordC c = true ∨ c = ' ') ∧ lowerChar c = c := by
    intro c hc
    rcases collapseWsAux_chars u0 false c hc with h | h
    · subst h; exact ⟨Or.inr rfl, by decide⟩
    · rcases (hu0chars c h.1).1 with h2 | h2
      · exact ⟨Or.inl h2, (hu0chars c h.1).2⟩
      · rw [h2] at h; exact absurd h.2 (by simp)
  have hw : removeNonWord v = v := by
    apply List.filter_eq_self.mpr
    intro c hc
    rcases (hvchars c hc).1 with h | h
    · simp [h]
    · subst h; simp [isWordC, isSpaceC]
  rw [hw]
  refine ⟨?_, ?_, ?_, pyStrip_head v, pyStrip_getLast v⟩
  · intro c hc
    exact (hvchars c ((pyStrip_sublist v).mem hc)).1
  · intro c hc
    exact (hvchars c ((pyStrip_sublist v).mem hc)).2
  · have hchain : List.Chain' (fun x y => isSpaceC x = false ∨ isSpaceC y = false) v :=
      collapseWsAux_chain u0 false
    have hinfix : (pyStrip v).IsInfix v :=
      (pyStrip_pref v).isInfix.trans (List.dropWhile_suffix isSpaceC).isInfix
    exact hchain.infix hinfix

theorem normalize_eq_self_of_canon {s : List Char} (h : CanonC s) :
    normalize_text s = s := by
  obtain ⟨hchars, hstable, hchain, hhead, hlast⟩ := h
  have hnomatch : '-' ∉ s ∧ ':' ∉ s ∧ '#' ∉ s := by
    refine ⟨fun hm => ?_, fun hm => ?_, fun hm => ?_⟩ <;>
      rcases hchars _ hm with h' | h' <;> simp [isWordC] at h'
  have hsubchars : ∀ (s' : List Char), s'.Sublist s →
      ('-' ∉ s' ∧ ':' ∉ s' ∧ '#' ∉ s') := by
    intro s' hsub
    exact ⟨fun hm => hnomatch.1 (hsub.mem hm), fun hm => hnomatch.2.1 (hsub.mem hm),
      fun hm => hnomatch.2.2 (hsub.mem hm)⟩
  unfold normalize_text
  have hlower : pyLower s = s := by
    unfold pyLower
    rw [List.map_congr_left hstable]
    simp
  rw [hlower, pyStrip_eq_self hhead hlast]
  have hP : ∀ c ∈ s, isWordC c = true ∨ c = ' ' := hchars
  have hdate : reSubR dateMatcher [] s = s :=
    reSubR_id (fun c => isWordC c = true ∨ c = ' ')
      (fun s' hs' => matchDate_none (fun hm => by
        rcases hs' _ hm with h' | h' <;> simp [isWordC] at h')) s hP
  rw [hdate]
  have htime : reSubR timeMatcher [] s = s :=
    reSubR_id (fun c => isWordC c = true ∨ c = ' ')
      (fun s' hs' => matchTime_none (fun hm => by
        rcases hs' _ hm with h' | h' <;> simp [isWordC] at h')) s hP
  rw [htime]
  have hid : reSubR idTagMatcher [] s = s :=
    reSubR_id (fun c => isWordC c = true ∨ c = ' ')
      (fun s' hs' => matchIdTag_none (fun hm => by
        rcases hs' _ hm with h' | h' <;> simp [isWordC] at h')) s hP
  rw [hid]
  have hhash : reSubR hashMatcher [] s = s :=
    reSubR_id (fun c => isWordC c = true ∨ c = ' ')
      (fun s' hs' => matchHash_none (fun hm => by
        rcases hs' _ hm with h' | h' <;> simp [isWordC] at h')) s hP
  rw [hhash]
  have hcollapse : collapseWs s = s := by
    unfold collapseWs
    apply collapseWsAux_eq_self s false (by simp) ?_ hchain
    intro c hc hcs
    rcases hchars c hc with h' | h'
    · rw [word_not_space h'] at hcs; exact absurd hcs (by simp)
    · exact h'
  rw [hcollapse]
  have hw : removeNonWord s = s := by
    apply List.filter_eq_self.mpr
    intro c hc
    rcases hchars c hc with h' | h'
    · simp [h']
    · subst h'; simp [isWordC, isSpaceC]
  rw [hw, pyStrip_eq_self hhead hlast]

/-- Claim C6 (amended): `normalize_text` is idempotent on every input made
only of word characters and whitespace.  (On general input a punctuation
character between spaces breaks idempotence; see the counterexample.) -/
theorem claim_C6_normalize_idempotent_on_wordspace (t : List Char)
    (ht : ∀ c ∈ t, isWordC c = true ∨ isSpaceC c = true) :
    normalize_text (normalize_text t) = normalize_text t :=
  normalize_eq_self_of_canon (normalize_canon t ht)

/-- Witness for C6's amended claim at a concrete punctuation-free input. -/
theorem claim_C6_witness :
    normalize_text (normalize_text ("Hello   World 42".toList)) =
      normalize_text ("Hello   World 42".toList) :=
  claim_C6_normalize_idempotent_on_wordspace ("Hello   World 42".toList) (by decide)

/-- Counterexample for C6 as stated: normalizing `"a . b"` yields `"a  b"`
(the punctuation strip leaves two adjacent spaces), and a second
normalization collapses them to `"a b"`. -/
theorem claim_C6_counterexample :
    normalize_text (normalize_text ("a . b".toList)) ≠
      normalize_text ("a . b".toList) := by
  decide

/-! ## Claim C4: the dynamic-programming pass on identical strings

The DP only ever selects diagonal blocks when `a = b` (an off-diagonal run
is dominated by the diagonal run over the same content, which the scan
reaches first), and the extension loops then grow any diagonal block to the
full string, so `find_longest_match` on identical strings returns the whole
string and the ratio is exactly 1. -/

theorem extendLowerAux_of_neg {a b : List Char} {bjunk : Char → Bool}
    {junk : Bool} {alo blo : Nat} {t : Nat × Nat × Nat}
    (h : ¬extendLowerCond a b bjunk junk alo blo t) :
    ∀ f, extendLowerAux a b bjunk junk alo blo f t = t := by
  intro f
  cases f with
  | zero => rfl
  | succ f => simp [extendLowerAux, h]

theorem extendUpperAux_of_neg {a b : List Char} {bjunk : Char → Bool}
    {junk : Bool} {ahi bhi : Nat} {t : Nat × Nat × Nat}
    (h : ¬extendUpperCond a b bjunk junk ahi bhi t) :
    ∀ f, extendUpperAux a b bjunk junk ahi bhi f t = t := by
  intro f
  cases f with
  | zero => rfl
  | succ f => simp [extendUpperAux, h]

theorem extendLower_junk_false (a b : List Char) (alo blo : Nat)
    (t : Nat × Nat × Nat) :
    extendLower a b (fun _ => false) true alo blo t = t :=
  extendLowerAux_of_neg (by simp [extendLowerCond]) t.1

theorem extendUpper_junk_false (a b : List Char) (ahi bhi : Nat)
    (t : Nat × Nat × Nat) :
    extendUpper a b (fun _ => false) true ahi bhi t = t :=
  extendUpperAux_of_neg (by simp [extendUpperCond]) ahi

theorem extendLowerAux_diag (s : List Char) :
    ∀ f d k, d ≤ f →
      extendLowerAux s s (fun _ => false) false 0 0 f (d, d, k) = (0, 0, d + k) := by
  intro f
  induction f with
  | zero =>
    intro d k hd
    have hd0 : d = 0 := Nat.le_zero.mp hd
    subst hd0
    simp [extendLowerAux]
  | succ f ih =>
    intro d k hd
    cases d with
    | zero =>
      rw [Nat.zero_add]
      exact extendLowerAux_of_neg (by simp [extendLowerCond]) (f + 1)
    | succ d =>
      have hcond : extendLowerCond s s (fun _ => false) false 0 0 (d + 1, d + 1, k) := by
        exact ⟨Nat.succ_pos d, Nat.succ_pos d, rfl, rfl⟩
      rw [extendLowerAux, if_pos hcond]
      have hrec := ih d (k + 1) (Nat.succ_le_succ_iff.mp hd)
      show extendLowerAux s s (fun _ => false) false 0 0 f (d, d, k + 1) = (0, 0, d + 1 + k)
      rw [hrec]
      congr 2
      omega

theorem extendLower_diag (s : List Char) (d k : Nat) :
    extendLower s s (fun _ => false) false 0 0 (d, d, k) = (0, 0, d + k) :=
  extendLowerAux_diag s d d k (le_refl d)

theorem extendUpperAux_diag (s : List Char) (n : Nat) :
    ∀ f m, n - m ≤ f → m ≤ n →
      extendUpperAux s s (fun _ => false) false n n f (0, 0, m) = (0, 0, n) := by
  intro f
  induction f with
  | zero =>
    intro m h1 h2
    have : m = n := by omega
    subst this
    rfl
  | succ f ih =>
    intro m h1 h2
    by_cases hm : m < n
    · have hcond : extendUpperCond s s (fun _ => false) false n n (0, 0, m) := by
        refine ⟨by simpa using hm, by simpa using hm, rfl, rfl⟩
      simp only [extendUpperAux, if_pos hcond]
      exact ih (m + 1) (by omega) (by omega)
    · have : m = n := by omega
      subst this
      exact extendUpperAux_of_neg (by simp [extendUpperCond]) (f + 1)

theorem extendUpper_diag (s : List Char) (n m : Nat) (h : m ≤ n) :
    extendUpper s s (fun _ => false) false n n (0, 0, m) = (0, 0, n) :=
  extendUpperAux_diag s n n m (by omega) h

/-- The column positions scanned in row `i` of the self-comparison DP. -/
def selfJs (s : List Char) (i : Nat) : List Nat :=
  (b2j s (s.getD i ' ')).filter (fun j => decide (0 ≤ j) && decide (j < s.length))

/-- The value the DP accumulates on the diagonal: the length of the current
streak of self-matching (non-popular) positions ending at `i`. -/
def diagD (s : List Char) : Nat → Nat
  | 0 => if 0 ∈ selfJs s 0 then 1 else 0
  | i + 1 => if i + 1 ∈ selfJs s (i + 1) then diagD s i + 1 else 0

theorem mem_selfJs {s : List Char} {i j : Nat} :
    j ∈ selfJs s i ↔
      isPopular s (s.getD i ' ') = false ∧ j < s.length ∧ s.getD j ' ' = s.getD i ' ' := by
  unfold selfJs b2j b2jRaw
  by_cases hp : isPopular s (s.getD i ' ') = true
  · rw [if_pos hp]
    rw [List.getD_eq_getElem?_getD] at hp
    simp [hp]
  · rw [if_neg hp]
    simp only [Bool.not_eq_true] at hp
    rw [List.getD_eq_getElem?_getD] at hp
    simp [List.mem_filter, List.mem_range, hp]

theorem selfJs_trans {s : List Char} {i j : Nat} (h : j ∈ selfJs s i) :
    j ∈ selfJs s j := by
  rcases mem_selfJs.mp h with ⟨hp, hj, hc⟩
  exact mem_selfJs.mpr ⟨by rw [hc]; exact hp, hj, rfl⟩

theorem diagD_of_mem {s : List Char} {j : Nat} (h : j ∈ selfJs s j) :
    diagD s j = (if j = 0 then 0 else diagD s (j - 1)) + 1 := by
  cases j with
  | zero => simp [diagD, h]
  | succ j => simp [diagD, h]

theorem diagD_of_not_mem {s : List Char} {j : Nat} (h : j ∉ selfJs s j) :
    diagD s j = 0 := by
  cases j with
  | zero => simp [diagD, h]
  | succ j => simp [diagD, h]

theorem diagD_le (s : List Char) : ∀ i, diagD s i ≤ i + 1 := by
  intro i
  induction i with
  | zero => by_cases h : 0 ∈ selfJs s 0 <;> simp [diagD, h]
  | succ i ih =>
    by_cases h : i + 1 ∈ selfJs s (i + 1) <;> simp [diagD, h] <;> omega

theorem selfJs_pairwise (s : List Char) (i : Nat) :
    (selfJs s i).Pairwise (· < ·) := by
  unfold selfJs b2j b2jRaw
  by_cases hp : isPopular s (s.getD i ' ') = true
  · rw [if_pos hp]
    simp
  · rw [if_neg hp]
    exact ((List.pairwise_lt_range s.length).filter _).filter _

theorem pairwise_split_lt {l : List Nat} (hp : l.Pairwise (· < ·)) {i : Nat}
    (hi : i ∈ l) :
    ∃ A B, l = A ++ i :: B ∧ (∀ a ∈ A, a < i) ∧ (∀ b ∈ B, i < b) := by
  obtain ⟨A, B, rfl⟩ := List.append_of_mem hi
  rw [List.pairwise_append] at hp
  refine ⟨A, B, rfl, ?_, ?_⟩
  · intro a ha
    exact hp.2.2 a ha i (by simp)
  · intro b hb
    exact (List.pairwise_cons.mp hp.2.1).1 b hb

/-- The candidate block length the inner loop computes at column `j`
(`j2len[j] = j2len.get(j-1, 0) + 1` with the fresh row read from `prev`). -/
def kval (prev : Nat → Nat) (j : Nat) : Nat :=
  (if j = 0 then 0 else prev (j - 1)) + 1

/-- The diagonal value of the row preceding row `r` (zero for the first row). -/
def dPrev (s : List Char) (r : Nat) : Nat :=
  if r = 0 then 0 else diagD s (r - 1)

theorem flmInner_cons (prev : Nat → Nat) (i j : Nat) (js : List Nat)
    (row : Nat → Nat) (best : Nat × Nat × Nat) :
    flmInner prev i (j :: js) row best =
      flmInner prev i js (fun j' => if j' = j then kval prev j else row j')
        (if best.2.2 < kval prev j then
          (i + 1 - kval prev j, j + 1 - kval prev j, kval prev j) else best) := rfl

theorem flmInner_no_update (prev : Nat → Nat) (i : Nat) :
    ∀ js (row : Nat → Nat) (best : Nat × Nat × Nat),
      (∀ j ∈ js, kval prev j ≤ best.2.2) →
      (flmInner prev i js row best).2 = best := by
  intro js
  induction js with
  | nil => intro row best _; rfl
  | cons j js ih =>
    intro row best h
    rw [flmInner_cons, if_neg (Nat.not_lt.mpr (h j (by simp)))]
    exact ih _ best (fun j' hj' => h j' (by simp [hj']))

theorem flmInner_row (prev : Nat → Nat) (i : Nat) :
    ∀ js (row : Nat → Nat) (best : Nat × Nat × Nat) (j' : Nat),
      (flmInner prev i js row best).1 j' =
        if j' ∈ js then kval prev j' else row j' := by
  intro js
  induction js with
  | nil => intro row best j'; simp [flmInner]
  | cons j js ih =>
    intro row best j'
    rw [flmInner_cons, ih]
    by_cases hmem : j' ∈ js
    · simp [hmem]
    · by_cases hj : j' = j
      · subst hj
        simp [hmem]
      · simp [hmem, hj]

theorem flmInner_append (prev : Nat → Nat) (i : Nat) :
    ∀ js1 js2 (row : Nat → Nat) (best : Nat × Nat × Nat),
      flmInner prev i (js1 ++ js2) row best =
        flmInner prev i js2 (flmInner prev i js1 row best).1
          (flmInner prev i js1 row best).2 := by
  intro js1
  induction js1 with
  | nil => intro js2 row best; rfl
  | cons j js1 ih =>
    intro js2 row best
    rw [List.cons_append, flmInner_cons, flmInner_cons, ih]

theorem selfJs_self_mem {s : List Char} {r j : Nat} (hr : r < s.length)
    (hj : j ∈ selfJs s r) : r ∈ selfJs s r := by
  rcases mem_selfJs.mp hj with ⟨hp, _, _⟩
  exact mem_selfJs.mpr ⟨hp, hr, rfl⟩

theorem kval_le_diag {s : List Char} {prev : Nat → Nat} {j : Nat}
    (hj : j ∈ selfJs s j) (h1 : ∀ j', prev j' ≤ diagD s j') :
    kval prev j ≤ diagD s j := by
  rw [diagD_of_mem hj]
  unfold kval
  by_cases h0 : j = 0
  · simp [h0]
  · rw [if_neg h0, if_neg h0]
    exact Nat.succ_le_succ (h1 (j - 1))

theorem kval_le_dPrev_succ {s : List Char} {prev : Nat → Nat} {r : Nat} {j : Nat}
    (h2 : ∀ j', prev j' ≤ dPrev s r) :
    kval prev j ≤ dPrev s r + 1 := by
  unfold kval
  by_cases h0 : j = 0
  · simp [h0]
  · rw [if_neg h0]
    exact Nat.succ_le_succ (h2 (j - 1))

theorem kval_diag {s : List Char} {prev : Nat → Nat} {r : Nat}
    (hr : r ∈ selfJs s r) (h3 : r ≠ 0 → prev (r - 1) = diagD s (r - 1)) :
    kval prev r = diagD s r := by
  rw [diagD_of_mem hr]
  unfold kval
  by_cases h0 : r = 0
  · simp [h0]
  · rw [if_neg h0, if_neg h0, h3 h0]

theorem dPrev_succ_eq {s : List Char} {r : Nat} (hr : r ∈ selfJs s r) :
    dPrev s r + 1 = diagD s r := by
  rw [diagD_of_mem hr]
  unfold dPrev
  rfl

theorem dPrev_succ (s : List Char) (r : Nat) : dPrev s (r + 1) = diagD s r := by
  simp [dPrev]

theorem flmInner_bestsize_mono (prev : Nat → Nat) (i : Nat) :
    ∀ js (row : Nat → Nat) (best : Nat × Nat × Nat),
      best.2.2 ≤ (flmInner prev i js row best).2.2.2 := by
  intro js
  induction js with
  | nil => intro row best; exact Nat.le_refl _
  | cons j js ih =>
    intro row best
    rw [flmInner_cons]
    by_cases hk : best.2.2 < kval prev j
    · rw [if_pos hk]
      exact Nat.le_trans (Nat.le_of_lt hk)
        (ih (fun j' => if j' = j then kval prev j else row j')
          (i + 1 - kval prev j, j + 1 - kval prev j, kval prev j))
    · rw [if_neg hk]
      exact ih _ _

theorem flmRows_cons_self (s : List Char) (r : Nat) (is : List Nat)
    (prev : Nat → Nat) (best : Nat × Nat × Nat) :
    flmRows s s 0 s.length (r :: is) prev best =
      flmRows s s 0 s.length is
        (flmInner prev r (selfJs s r) (fun _ => 0) best).1
        (flmInner prev r (selfJs s r) (fun _ => 0) best).2 := rfl

/-- The dynamic-programming pass of `find_longest_match` on identical
strings returns a diagonal block `(d, d, k)` with `d + k ≤ n`: every
strictly-greater update happens on the diagonal because off-diagonal
candidates are dominated by an already-recorded diagonal streak. -/
theorem flmRows_diag_aux (s : List Char) :
    ∀ m r (prev : Nat → Nat) (best : Nat × Nat × Nat),
      r + m = s.length →
      (∀ j, prev j ≤ diagD s j) →
      (∀ j, prev j ≤ dPrev s r) →
      (r ≠ 0 → prev (r - 1) = diagD s (r - 1)) →
      best.1 = best.2.1 →
      best.1 + best.2.2 ≤ s.length →
      (∀ r' < r, diagD s r' ≤ best.2.2) →
      ∃ d k, flmRows s s 0 s.length (List.range' r m) prev best = (d, d, k) ∧
        d + k ≤ s.length := by
  intro m
  induction m with
  | zero =>
    intro r prev best hrm h1 h2 h3 h4 h5 h6
    obtain ⟨b1, b2, b3⟩ := best
    dsimp only at h4 h5
    subst h4
    exact ⟨b1, b3, by rw [List.range'_zero]; rfl, h5⟩
  | succ m ih =>
    intro r prev best hrm h1 h2 h3 h4 h5 h6
    have hrn : r < s.length := by omega
    rw [List.range'_succ, flmRows_cons_self]
    by_cases hr : r ∈ selfJs s r
    · obtain ⟨A, B, hAB, hA, hB⟩ := pairwise_split_lt (selfJs_pairwise s r) hr
      have hkr_diag : kval prev r = diagD s r := kval_diag hr h3
      have hAbound : ∀ j ∈ A, kval prev j ≤ best.2.2 := by
        intro j hj
        have hjs : j ∈ selfJs s r := by rw [hAB]; exact List.mem_append_left _ hj
        exact Nat.le_trans (kval_le_diag (selfJs_trans hjs) h1) (h6 j (hA j hj))
      have hbest2 : (flmInner prev r (selfJs s r) (fun _ => 0) best).2 =
          if best.2.2 < kval prev r then
            (r + 1 - kval prev r, r + 1 - kval prev r, kval prev r) else best := by
        rw [hAB, flmInner_append, flmInner_no_update prev r A _ best hAbound,
          flmInner_cons]
        apply flmInner_no_update
        intro j hj
        have hkj : kval prev j ≤ diagD s r := by
          rw [← dPrev_succ_eq hr]
          exact kval_le_dPrev_succ h2
        by_cases hup : best.2.2 < kval prev r
        · rw [if_pos hup]
          show kval prev j ≤ kval prev r
          rw [hkr_diag]
          exact hkj
        · rw [if_neg hup]
          exact Nat.le_trans hkj (by rw [← hkr_diag]; exact Nat.not_lt.mp hup)
      have hrow : ∀ j', (flmInner prev r (selfJs s r) (fun _ => 0) best).1 j' =
          if j' ∈ selfJs s r then kval prev j' else 0 :=
        fun j' => flmInner_row prev r (selfJs s r) _ best j'
      refine ih (r + 1) _ _ (by omega) ?ha ?hb ?hc ?hd ?he ?hf
      case ha =>
        intro j
        rw [hrow j]
        by_cases hj : j ∈ selfJs s r
        · rw [if_pos hj]
          exact kval_le_diag (selfJs_trans hj) h1
        · rw [if_neg hj]
          exact Nat.zero_le _
      case hb =>
        intro j
        rw [hrow j, dPrev_succ, ← dPrev_succ_eq hr]
        by_cases hj : j ∈ selfJs s r
        · rw [if_pos hj]
          exact kval_le_dPrev_succ h2
        · rw [if_neg hj]
          exact Nat.zero_le _
      case hc =>
        intro _
        show (flmInner prev r (selfJs s r) (fun _ => 0) best).1 r = diagD s r
        rw [hrow r, if_pos hr, hkr_diag]
      case hd =>
        rw [hbest2]
        by_cases hup : best.2.2 < kval prev r
        · rw [if_pos hup]
        · rw [if_neg hup]
          exact h4
      case he =>
        rw [hbest2]
        by_cases hup : best.2.2 < kval prev r
        · rw [if_pos hup]
          show r + 1 - kval prev r + kval prev r ≤ s.length
          have hkle : kval prev r ≤ r + 1 := by
            rw [hkr_diag]
            exact diagD_le s r
          omega
        · rw [if_neg hup]
          exact h5
      case hf =>
        have hmono : diagD s r ≤
            ((flmInner prev r (selfJs s r) (fun _ => 0) best).2).2.2 := by
          rw [hbest2]
          by_cases hup : best.2.2 < kval prev r
          · rw [if_pos hup]
            show diagD s r ≤ kval prev r
            rw [hkr_diag]
          · rw [if_neg hup]
            rw [← hkr_diag]
            exact Nat.not_lt.mp hup
        have hkeep : best.2.2 ≤
            ((flmInner prev r (selfJs s r) (fun _ => 0) best).2).2.2 := by
          rw [hbest2]
          by_cases hup : best.2.2 < kval prev r
          · rw [if_pos hup]
            exact Nat.le_of_lt hup
          · rw [if_neg hup]
        intro r' hr'
        rcases Nat.lt_succ_iff_lt_or_eq.mp hr' with h | h
        · exact Nat.le_trans (h6 r' h) hkeep
        · subst h
          exact hmono
    · have hempty : selfJs s r = [] := by
        rw [List.eq_nil_iff_forall_not_mem]
        intro j hj
        exact hr (selfJs_self_mem hrn hj)
      rw [hempty]
      show ∃ d k, flmRows s s 0 s.length (List.range' (r + 1) m) (fun _ => 0) best =
        (d, d, k) ∧ d + k ≤ s.length
      refine ih (r + 1) (fun _ => 0) best (by omega) (fun j => Nat.zero_le _)
        (fun j => Nat.zero_le _) (fun _ => (diagD_of_not_mem hr).symm) h4 h5 ?_
      intro r' hr'
      rcases Nat.lt_succ_iff_lt_or_eq.mp hr' with h | h
      · exact h6 r' h
      · subst h
        rw [diagD_of_not_mem hr]
        exact Nat.zero_le _

theorem extendLower_of_neg {a b : List Char} {bjunk : Char → Bool} {junk : Bool}
    {alo blo : Nat} {t : Nat × Nat × Nat}
    (h : ¬extendLowerCond a b bjunk junk alo blo t) :
    extendLower a b bjunk junk alo blo t = t :=
  extendLowerAux_of_neg h t.1

theorem extendUpper_of_neg {a b : List Char} {bjunk : Char → Bool} {junk : Bool}
    {ahi bhi : Nat} {t : Nat × Nat × Nat}
    (h : ¬extendUpperCond a b bjunk junk ahi bhi t) :
    extendUpper a b bjunk junk ahi bhi t = t :=
  extendUpperAux_of_neg h ahi

/-- On identical strings `find_longest_match(0, n, 0, n)` returns the whole
string: the DP yields a diagonal block and the extension loops grow it to
`(0, 0, n)`. -/
theorem findLongestMatch_self (s : List Char) :
    findLongestMatch s s (fun _ => false) 0 s.length 0 s.length =
      (0, 0, s.length) := by
  obtain ⟨d, k, hdk, hsum⟩ := flmRows_diag_aux s s.length 0 (fun _ => 0) (0, 0, 0)
    (by omega) (fun j => Nat.zero_le _) (fun j => Nat.zero_le _)
    (fun h => absurd rfl h) rfl (by simp)
    (fun r' hr' => absurd hr' (Nat.not_lt_zero r'))
  unfold findLongestMatch
  rw [Nat.sub_zero, hdk, extendLower_diag,
    extendUpper_diag s s.length (d + k) hsum,
    extendLower_junk_false, extendUpper_junk_false]

theorem findLongestMatch_empty (a b : List Char) (bjunk : Char → Bool)
    (x y : Nat) :
    findLongestMatch a b bjunk x x y y = (x, y, 0) := by
  unfold findLongestMatch
  rw [Nat.sub_self, List.range'_zero]
  show extendUpper a b bjunk true x y (extendLower a b bjunk true x y
    (extendUpper a b bjunk false x y
      (extendLower a b bjunk false x y (x, y, 0)))) = (x, y, 0)
  rw [@extendLower_of_neg a b bjunk false x y (x, y, 0) (by simp [extendLowerCond]),
    @extendUpper_of_neg a b bjunk false x y (x, y, 0) (by simp [extendUpperCond]),
    @extendLower_of_neg a b bjunk true x y (x, y, 0) (by simp [extendLowerCond]),
    @extendUpper_of_neg a b bjunk true x y (x, y, 0) (by simp [extendUpperCond])]

theorem matchingBlocksAux_empty (a b : List Char) (bjunk : Char → Bool)
    (f x y : Nat) :
    matchingBlocksAux a b bjunk (f + 1) x x y y = [] := by
  simp [matchingBlocksAux, findLongestMatch_empty]

theorem matchingBlocks_self (s : List Char) (h : s ≠ []) :
    matchingBlocks s s = [(0, 0, s.length)] := by
  have hn : s.length ≠ 0 := by simpa using h
  obtain ⟨g, hg⟩ : ∃ g, s.length + s.length = g + 1 :=
    ⟨s.length + s.length - 1, by omega⟩
  unfold matchingBlocks
  simp only [matchingBlocksAux, findLongestMatch_self]
  rw [if_neg hn]
  simp only [Nat.zero_add]
  rw [hg, matchingBlocksAux_empty, matchingBlocksAux_empty]
  rfl

/-- `SequenceMatcher.ratio()` of a string with itself is exactly `1`. -/
theorem smRatio_self (s : List Char) : smRatio s s = 1 := by
  by_cases h : s = []
  · subst h
    rfl
  · have hn : s.length ≠ 0 := by simpa using h
    have hq : ((s.length : ℚ) + (s.length : ℚ)) ≠ 0 := by
      have hpos : (0 : ℚ) < (s.length : ℚ) := by
        exact_mod_cast Nat.pos_of_ne_zero hn
      linarith
    simp only [smRatio, matchingBlocks_self s h]
    rw [if_neg (show ¬(s.length + s.length = 0) by omega)]
    simp only [List.map_cons, List.map_nil, List.sum_cons, List.sum_nil,
      Nat.add_zero]
    rw [div_eq_one_iff_eq hq]
    ring

theorem jac_self_eq_one (W : Finset (List Char)) :
    (if W = ∅ ∧ W = ∅ then (1 : ℚ)
      else if W = ∅ ∨ W = ∅ then 0
        else ((W ∩ W).card : ℚ) / ((W ∪ W).card : ℚ)) = 1 := by
  by_cases hW : W = ∅
  · rw [if_pos ⟨hW, hW⟩]
  · rw [if_neg (by tauto), if_neg (by tauto), Finset.inter_self,
      Finset.union_self]
    apply div_self
    have hpos : 0 < W.card :=
      Finset.card_pos.mpr (Finset.nonempty_iff_ne_empty.mpr hW)
    have hne : W.card ≠ 0 := Nat.pos_iff_ne_zero.mp hpos
    exact_mod_cast hne

/-! ## Claim C5: threshold 1 only groups exact normalized matches

Every matching block that `find_longest_match` can return lies inside the
requested ranges, so the total matched length is at most each input's
length and the ratio is at most `1`; the remaining metrics are bounded by
`1` as well, so a composite score reaching `1` under the default weights
forces the exact-match metric to be `1`. -/

/-- The block `t = (i, j, k)` lies inside the ranges
`[alo, ahi) × [blo, bhi)`. -/
def ValidT (alo ahi blo bhi : Nat) (t : Nat × Nat × Nat) : Prop :=
  alo ≤ t.1 ∧ t.1 + t.2.2 ≤ ahi ∧ blo ≤ t.2.1 ∧ t.2.1 + t.2.2 ≤ bhi

theorem kval_bound_row {prev : Nat → Nat} {alo i : Nat} (j : Nat)
    (hA : ∀ j', prev j' + alo ≤ i) (hi : alo ≤ i) :
    kval prev j + alo ≤ i + 1 := by
  unfold kval
  by_cases h0 : j = 0
  · rw [if_pos h0]
    omega
  · rw [if_neg h0]
    have := hA (j - 1)
    omega

theorem kval_bound_col {prev : Nat → Nat} {blo j : Nat}
    (hB : ∀ j', prev j' = 0 ∨ prev j' + blo ≤ j' + 1) (hj : blo ≤ j) :
    kval prev j + blo ≤ j + 1 := by
  unfold kval
  by_cases h0 : j = 0
  · rw [if_pos h0]
    omega
  · rw [if_neg h0]
    rcases hB (j - 1) with hz | hle
    · rw [hz]
      omega
    · omega

theorem flmInner_valid (prev : Nat → Nat) (i alo ahi blo bhi : Nat)
    (hi1 : alo ≤ i) (hi2 : i < ahi)
    (hA : ∀ j', prev j' + alo ≤ i)
    (hB : ∀ j', prev j' = 0 ∨ prev j' + blo ≤ j' + 1) :
    ∀ js (row : Nat → Nat) (best : Nat × Nat × Nat),
      (∀ j ∈ js, blo ≤ j ∧ j < bhi) →
      ValidT alo ahi blo bhi best →
      ValidT alo ahi blo bhi (flmInner prev i js row best).2 := by
  intro js
  induction js with
  | nil => intro row best _ hb; exact hb
  | cons j js ih =>
    intro row best hjs hb
    rw [flmInner_cons]
    apply ih _ _ (fun j' hj' => hjs j' (List.mem_cons_of_mem _ hj'))
    by_cases hup : best.2.2 < kval prev j
    · rw [if_pos hup]
      obtain ⟨hjb, hjhi⟩ := hjs j (List.mem_cons_self _ _)
      have hk1 : kval prev j + alo ≤ i + 1 := kval_bound_row j hA hi1
      have hk2 : kval prev j + blo ≤ j + 1 := kval_bound_col hB hjb
      unfold ValidT
      dsimp only
      omega
    · rw [if_neg hup]
      exact hb

theorem flmRows_cons (a b : List Char) (blo bhi r : Nat) (is : List Nat)
    (prev : Nat → Nat) (best : Nat × Nat × Nat) :
    flmRows a b blo bhi (r :: is) prev best =
      flmRows a b blo bhi is
        (flmInner prev r ((b2j b (a.getD r ' ')).filter
          (fun j => decide (blo ≤ j) && decide (j < bhi))) (fun _ => 0) best).1
        (flmInner prev r ((b2j b (a.getD r ' ')).filter
          (fun j => decide (blo ≤ j) && decide (j < bhi))) (fun _ => 0) best).2 := rfl

theorem flmRows_valid (a b : List Char) (alo ahi blo bhi : Nat) :
    ∀ m r (prev : Nat → Nat) (best : Nat × Nat × Nat),
      alo ≤ r → r + m = ahi →
      (∀ j', prev j' + alo ≤ r) →
      (∀ j', prev j' = 0 ∨ prev j' + blo ≤ j' + 1) →
      ValidT alo ahi blo bhi best →
      ValidT alo ahi blo bhi
        (flmRows a b blo bhi (List.range' r m) prev best) := by
  intro m
  induction m with
  | zero =>
    intro r prev best _ _ _ _ hb
    rw [List.range'_zero]
    exact hb
  | succ m ih =>
    intro r prev best hr hrm hA hB hb
    rw [List.range'_succ, flmRows_cons]
    have hjs : ∀ j ∈ (b2j b (a.getD r ' ')).filter
        (fun j => decide (blo ≤ j) && decide (j < bhi)), blo ≤ j ∧ j < bhi := by
      intro j hj
      have := List.of_mem_filter hj
      simp only [Bool.and_eq_true, decide_eq_true_eq] at this
      exact this
    have hrow : ∀ j', (flmInner prev r ((b2j b (a.getD r ' ')).filter
        (fun j => decide (blo ≤ j) && decide (j < bhi))) (fun _ => 0) best).1 j' =
        if j' ∈ (b2j b (a.getD r ' ')).filter
          (fun j => decide (blo ≤ j) && decide (j < bhi)) then kval prev j' else 0 :=
      fun j' => flmInner_row prev r _ _ best j'
    refine ih (r + 1) _ _ (by omega) (by omega) ?ra ?rb ?rc
    case ra =>
      intro j'
      rw [hrow j']
      by_cases hj : j' ∈ (b2j b (a.getD r ' ')).filter
        (fun j => decide (blo ≤ j) && decide (j < bhi))
      · rw [if_pos hj]
        exact kval_bound_row j' hA hr
      · rw [if_neg hj]
        omega
    case rb =>
      intro j'
      rw [hrow j']
      by_cases hj : j' ∈ (b2j b (a.getD r ' ')).filter
        (fun j => decide (blo ≤ j) && decide (j < bhi))
      · rw [if_pos hj]
        exact Or.inr (kval_bound_col hB (hjs j' hj).1)
      · rw [if_neg hj]
        exact Or.inl rfl
    case rc =>
      exact flmInner_valid prev r alo ahi blo bhi hr (by omega) hA hB _ _ _ hjs hb

theorem extendLowerAux_valid (a b : List Char) (bjunk : Char → Bool)
    (junk : Bool) (alo blo ahi bhi : Nat) :
    ∀ f t, ValidT alo ahi blo bhi t →
      ValidT alo ahi blo bhi (extendLowerAux a b bjunk junk alo blo f t) := by
  intro f
  induction f with
  | zero => intro t ht; exact ht
  | succ f ih =>
    intro t ht
    rw [extendLowerAux]
    by_cases hc : extendLowerCond a b bjunk junk alo blo t
    · rw [if_pos hc]
      apply ih
      obtain ⟨h1, h2, h3, h4⟩ := ht
      have hc' := hc
      unfold extendLowerCond at hc'
      obtain ⟨hc1, hc2, _, _⟩ := hc'
      unfold ValidT
      dsimp only
      omega
    · rw [if_neg hc]
      exact ht

theorem extendUpperAux_valid (a b : List Char) (bjunk : Char → Bool)
    (junk : Bool) (ahi bhi alo blo : Nat) :
    ∀ f t, ValidT alo ahi blo bhi t →
      ValidT alo ahi blo bhi (extendUpperAux a b bjunk junk ahi bhi f t) := by
  intro f
  induction f with
  | zero => intro t ht; exact ht
  | succ f ih =>
    intro t ht
    rw [extendUpperAux]
    by_cases hc : extendUpperCond a b bjunk junk ahi bhi t
    · rw [if_pos hc]
      apply ih
      obtain ⟨h1, h2, h3, h4⟩ := ht
      have hc' := hc
      unfold extendUpperCond at hc'
      obtain ⟨hc1, hc2, _, _⟩ := hc'
      unfold ValidT
      dsimp only
      omega
    · rw [if_neg hc]
      exact ht

theorem findLongestMatch_valid (a b : List Char) (bjunk : Char → Bool)
    (alo ahi blo bhi : Nat) (h1 : alo ≤ ahi) (h2 : blo ≤ bhi) :
    ValidT alo ahi blo bhi (findLongestMatch a b bjunk alo ahi blo bhi) := by
  unfold findLongestMatch extendLower extendUpper
  apply extendUpperAux_valid
  apply extendLowerAux_valid
  apply extendUpperAux_valid
  apply extendLowerAux_valid
  apply flmRows_valid a b alo ahi blo bhi (ahi - alo) alo (fun _ => 0)
    (alo, blo, 0) (Nat.le_refl _) (by omega)
    (fun j' => by show (0 : Nat) + alo ≤ alo; omega)
    (fun j' => Or.inl rfl)
  unfold ValidT
  dsimp only
  omega

/-- The total length matched by `get_matching_blocks` does not exceed
either range. -/
theorem matchingBlocksAux_sum (a b : List Char) (bjunk : Char → Bool) :
    ∀ f alo ahi blo bhi, alo ≤ ahi → blo ≤ bhi →
      ((matchingBlocksAux a b bjunk f alo ahi blo bhi).map
        (fun t => t.2.2)).sum + alo ≤ ahi ∧
      ((matchingBlocksAux a b bjunk f alo ahi blo bhi).map
        (fun t => t.2.2)).sum + blo ≤ bhi := by
  intro f
  induction f with
  | zero =>
    intro alo ahi blo bhi h1 h2
    constructor <;> simpa [matchingBlocksAux]
  | succ f ih =>
    intro alo ahi blo bhi h1 h2
    have hv := findLongestMatch_valid a b bjunk alo ahi blo bhi h1 h2
    unfold ValidT at hv
    obtain ⟨hv1, hv2, hv3, hv4⟩ := hv
    simp only [matchingBlocksAux]
    by_cases h0 : (findLongestMatch a b bjunk alo ahi blo bhi).2.2 = 0
    · rw [if_pos h0]
      constructor <;> simpa
    · rw [if_neg h0]
      have hL := ih alo (findLongestMatch a b bjunk alo ahi blo bhi).1
        blo (findLongestMatch a b bjunk alo ahi blo bhi).2.1 hv1 hv3
      have hR := ih ((findLongestMatch a b bjunk alo ahi blo bhi).1 +
          (findLongestMatch a b bjunk alo ahi blo bhi).2.2) ahi
        ((findLongestMatch a b bjunk alo ahi blo bhi).2.1 +
          (findLongestMatch a b bjunk alo ahi blo bhi).2.2) bhi hv2 hv4
      simp only [List.map_append, List.map_cons, List.sum_append, List.sum_cons]
      omega

theorem matchingBlocks_sum_le (a b : List Char) :
    ((matchingBlocks a b).map (fun t => t.2.2)).sum ≤ a.length ∧
    ((matchingBlocks a b).map (fun t => t.2.2)).sum ≤ b.length := by
  have h := matchingBlocksAux_sum a b (fun _ => false) (a.length + b.length + 1)
    0 a.length 0 b.length (Nat.zero_le _) (Nat.zero_le _)
  unfold matchingBlocks
  omega

/-- `SequenceMatcher.ratio()` never exceeds `1`. -/
theorem smRatio_le_one (a b : List Char) : smRatio a b ≤ 1 := by
  obtain ⟨hA, hB⟩ := matchingBlocks_sum_le a b
  simp only [smRatio]
  by_cases h : a.length + b.length = 0
  · rw [if_pos h]
  · rw [if_neg h]
    have hpos : (0 : ℚ) < (a.length : ℚ) + (b.length : ℚ) := by
      have : 0 < a.length + b.length := Nat.pos_of_ne_zero h
      exact_mod_cast this
    rw [div_le_one hpos]
    have h2 : 2 * ((matchingBlocks a b).map (fun t => t.2.2)).sum ≤
        a.length + b.length := by omega
    have h3 : ((2 * ((matchingBlocks a b).map (fun t => t.2.2)).sum : Nat) : ℚ) ≤
        ((a.length + b.length : Nat) : ℚ) := Nat.cast_le.mpr h2
    push_cast at h3
    simpa using h3

theorem lev_expr_le_one (d M : Nat) :
    (if M = 0 then (1 : ℚ) else 1 - (d : ℚ) / (M : ℚ)) ≤ 1 := by
  by_cases h : M = 0
  · rw [if_pos h]
  · rw [if_neg h]
    have hd : (0 : ℚ) ≤ (d : ℚ) / (M : ℚ) := by positivity
    linarith

theorem jac_expr_le_one (W1 W2 : Finset (List Char)) :
    (if W1 = ∅ ∧ W2 = ∅ then (1 : ℚ)
      else if W1 = ∅ ∨ W2 = ∅ then 0
        else ((W1 ∩ W2).card : ℚ) / ((W1 ∪ W2).card : ℚ)) ≤ 1 := by
  by_cases h1 : W1 = ∅ ∧ W2 = ∅
  · rw [if_pos h1]
  · rw [if_neg h1]
    by_cases h2 : W1 = ∅ ∨ W2 = ∅
    · rw [if_pos h2]
      norm_num
    · rw [if_neg h2]
      push_neg at h2
      obtain ⟨x, hx⟩ := Finset.nonempty_iff_ne_empty.mpr h2.1
      have hcard : 0 < (W1 ∪ W2).card :=
        Finset.card_pos.mpr ⟨x, Finset.mem_union_left _ hx⟩
      rw [div_le_one (by exact_mod_cast hcard)]
      exact_mod_cast Finset.card_le_card Finset.inter_subset_union

/-- A composite score reaching `1` under the default weights forces the
normalized texts to be equal: with the exact-match metric at `0` the other
three metrics contribute at most `0.25 + 0.25 + 0.2 = 0.7`. -/
theorem normalize_eq_of_composite_ge_one {t1 t2 : List Char}
    (h : 1 ≤ (calculate_similarity defaultWeights t1 t2).composite_similarity) :
    normalize_text t1 = normalize_text t2 := by
  by_contra hne
  have hseq : smRatio (normalize_text t1) (normalize_text t2) ≤ 1 :=
    smRatio_le_one _ _
  have hlev := lev_expr_le_one (levenshtein (normalize_text t1) (normalize_text t2))
    (max (normalize_text t1).length (normalize_text t2).length)
  have hjac := jac_expr_le_one (pySplit (normalize_text t1)).toFinset
    (pySplit (normalize_text t2)).toFinset
  simp only [calculate_similarity, defaultWeights] at h
  rw [if_neg hne] at h
  linarith

/-- Every raw group emitted by the clustering loop is a leader followed by
members whose composite score against the leader reached the threshold. -/
theorem clusterAux_group_shape (w : Weights) (threshold : ℚ) :
    ∀ (recs : List Record) (p : List Nat), ∀ g ∈ clusterAux w threshold recs p,
      ∃ leader members, g = leader :: members ∧
        ∀ r ∈ members, threshold ≤
          (calculate_similarity w leader.content r.content).composite_similarity := by
  intro recs
  induction recs with
  | nil => intro p g hg; simp [clusterAux] at hg
  | cons x recs ih =>
    intro p g hg
    simp only [clusterAux] at hg
    split at hg
    · exact ih p g hg
    · split at hg
      · exact ih _ g hg
      · rcases List.mem_cons.mp hg with h' | h'
        · subst h'
          exact ⟨x, (scanMembers w threshold x.content recs p).1, rfl,
            fun r hr => scanMembers_score w threshold x.content recs p r hr⟩
        · exact ih _ g h'

/-- C5: with `threshold = 1` and the default weights, every emitted
duplicate group consists of a leader and members whose normalized content
is identical to the leader's normalized content. -/
theorem claim_C5_threshold_one_exact (records : List Record) (g : Group)
    (hg : g ∈ (find_duplicates defaultWeights 1 records).duplicate_groups)
    (leader : Record) (rest : List Record) (hgr : g.records = leader :: rest) :
    ∀ r ∈ rest, normalize_text r.content = normalize_text leader.content := by
  have hraw : g.records ∈ clusterAux defaultWeights 1 records [] := by
    simp only [find_duplicates] at hg
    obtain ⟨ig, hig, hmk⟩ := List.mem_map.mp hg
    have hrec : g.records = ig.2 := by rw [← hmk]; rfl
    obtain ⟨-, -, h3⟩ := List.mem_enumFrom hig
    rw [hrec, h3]
    apply List.getElem_mem
  obtain ⟨leader', members, hshape, hscore⟩ :=
    clusterAux_group_shape defaultWeights 1 records [] g.records hraw
  rw [hgr] at hshape
  obtain ⟨hlead, hmem⟩ := List.cons.injEq leader rest leader' members ▸ hshape
  intro r hr
  have hs := hscore r (by rw [← hmem]; exact hr)
  rw [← hlead] at hs
  exact (normalize_eq_of_composite_ge_one hs).symm

unseal Rat.mul Rat.inv Rat.add Rat.sub in
/-- Witness for C5 at a concrete record list: at threshold `1` the two
records normalizing to the same text form a group, and the member's
normalized content equals the leader's. -/
theorem claim_C5_witness :
    mkGroup defaultWeights 0 [⟨1, ("hi #1".toList), 5⟩, ⟨2, ("hi #2".toList), 3⟩] ∈
      (find_duplicates defaultWeights 1
        [⟨1, ("hi #1".toList), 5⟩, ⟨2, ("hi #2".toList), 3⟩]).duplicate_groups ∧
    normalize_text ("hi #2".toList) = normalize_text ("hi #1".toList) :=
  ⟨by decide,
    claim_C5_threshold_one_exact
      [⟨1, ("hi #1".toList), 5⟩, ⟨2, ("hi #2".toList), 3⟩]
      (mkGroup defaultWeights 0 [⟨1, ("hi #1".toList), 5⟩, ⟨2, ("hi #2".toList), 3⟩])
      (by decide)
      ⟨1, ("hi #1".toList), 5⟩ [⟨2, ("hi #2".toList), 3⟩] rfl
      ⟨2, ("hi #2".toList), 3⟩ (by decide)⟩

/-- C4: for every text `t`, `calculate_similarity(t, t)` under the default
weights `0.30/0.25/0.25/0.20` yields exact_match, sequence_similarity,
levenshtein_similarity and jaccard_similarity all exactly `1` and a
composite score of exactly `1`. -/
theorem claim_C4_self_score_one (t : List Char) :
    calculate_similarity defaultWeights t t =
      { exact_match := 1, sequence_similarity := 1, levenshtein_similarity := 1,
        jaccard_similarity := 1, composite_similarity := 1 } := by
  simp only [calculate_similarity, defaultWeights, if_true, smRatio_self,
    levenshtein_self, sup_idem, Nat.cast_zero, zero_div, sub_zero, ite_self,
    jac_self_eq_one]
  norm_num

end Dedup
